import Mathlib

/-!
Verification model of the paperweave ingestion pipeline.

The graph store (Neo4j) is embedded as an explicit state (`GraphStore`); each
Cypher statement issued by the Python source is translated into a pure state
transformer with MERGE / MATCH / DETACH DELETE semantics.  Timestamps are
abstract integers; the Python `datetime` parse of `update_date` strings is
modelled by an order-preserving YYYYMMDD integer encoding of the date part
(`parseUpdateDate`), which is all the claims depend on.
-/

/-- Dublin-Core field values are dynamically typed in the source: a tag that
occurs once is stored as a plain string, a repeated tag as a list of strings.
Scalar fields copied from such values keep this shape. -/
inductive StrOrList where
  | str (s : String)
  | list (l : List String)
deriving DecidableEq, Repr

/-- A Paper node.  `arxiv_id` is the merge key; the remaining scalar fields are
exactly the ones written by the batch upsert and the OpenAlex loaders. -/
structure Paper where
  arxiv_id : String
  title : StrOrList := .str ""
  abstract : StrOrList := .str ""
  submitter : StrOrList := .str ""
  journal_ref : Option String := none
  doi : Option String := none
  report_no : Option String := none
  license : Option String := none
  update_date : Option Int := none
  last_modified : Option Int := none
  openalex_id : Option String := none
deriving DecidableEq, Repr

/-- The graph store state: Paper nodes, Author nodes (keyed by name), Category
nodes (id, name), the WROTE (author name, paper key), HAS_CATEGORY
(paper key, category id) and CITES (citing paper key, cited paper key) edges,
and the UpdateLog ledger's stored `last_update_time`. -/
structure GraphStore where
  papers : List Paper := []
  authors : List String := []
  categories : List (String × String) := []
  wrote : List (String × String) := []
  hasCategory : List (String × String) := []
  cites : List (String × String) := []
  updateLog : Option Int := none
deriving DecidableEq, Repr

def emptyStore : GraphStore := {}

/-- Input record shape consumed by `upsert_paper_batch` (the dict produced by
`convert_oai_record_to_paper_data`).  A record flagged deleted carries only
`id` and `status`; the remaining keys then hold their defaults. -/
structure PaperData where
  id : Option String
  status : Option String := none
  title : StrOrList := .str ""
  abstract : StrOrList := .str ""
  categories : String := ""
  update_date : String := ""
  submitter : StrOrList := .str ""
  authors : String := ""
  journal_ref : Option String := none
  doi : Option String := none
  report_no : Option String := none
  license : Option String := none
  authors_parsed : List (List String) := []
deriving DecidableEq, Repr

def PaperData.isDeleted (p : PaperData) : Bool := p.status == some "deleted"

/-- Python `str.strip()`: drop leading and trailing whitespace. -/
def pyStrip (s : String) : String :=
  String.mk (((s.data.dropWhile Char.isWhitespace).reverse.dropWhile Char.isWhitespace).reverse)

/-- Splitting a character list on a predicate, keeping empty pieces
(the shape shared by Python `str.split(sep)` and `str.split()`). -/
def splitPredAux (p : Char → Bool) : List Char → List (List Char)
  | [] => [[]]
  | c :: rest =>
    match splitPredAux p rest with
    | [] => [[]]
    | h :: t => if p c then [] :: h :: t else (c :: h) :: t

/-- Python `str.split(sep)` for a one-character separator: empty pieces kept. -/
def pySplitChar (sep : Char) (s : String) : List String :=
  (splitPredAux (fun c => c == sep) s.data).map String.mk

/-- Python `str.split()` (no argument): split on whitespace runs, empty pieces
dropped. -/
def pySplitWs (s : String) : List String :=
  ((splitPredAux Char.isWhitespace s.data).map String.mk).filter (fun w => w ≠ "")

/-- Python `str.join` over a separator. -/
def pyJoin (sep : String) : List String → String
  | [] => ""
  | [x] => x
  | x :: xs => x ++ sep ++ pyJoin sep xs

/-- Fuel-driven core of Python `str.replace(pat, "")`: scan left to right,
skipping each occurrence of the pattern. -/
def replaceAux (pat : List Char) : Nat → List Char → List Char
  | 0, l => l
  | _ + 1, [] => []
  | fuel + 1, c :: rest =>
    if (c :: rest).take pat.length == pat then replaceAux pat fuel ((c :: rest).drop pat.length)
    else c :: replaceAux pat fuel rest

/-- Python `s.replace(pat, "")`. -/
def pyReplaceDel (s pat : String) : String :=
  String.mk (replaceAux pat.data s.data.length s.data)

/-- Python `int(s)` on a plain digit string (the shape `strptime` accepts). -/
def pyToNat? (s : String) : Option Nat :=
  if s.data ≠ [] ∧ s.data.all Char.isDigit then
    some (s.data.foldl (fun a c => a * 10 + (c.toNat - 48)) 0)
  else none

/-- Date part of the two-stage datetime parse (`fromisoformat`, falling back to
`strptime %Y-%m-%d`): a leading `YYYY-MM-DD` is encoded as the integer
YYYYMMDD, which preserves chronological order; anything else parses to none. -/
def parseDateYMD (s : String) : Option Int :=
  match pySplitChar '-' (String.mk (s.data.take 10)) with
  | [y, m, d] =>
    match pyToNat? y, pyToNat? m, pyToNat? d with
    | some yn, some mn, some dn =>
      if y.length = 4 ∧ m.length = 2 ∧ d.length = 2 ∧
         1 ≤ mn ∧ mn ≤ 12 ∧ 1 ≤ dn ∧ dn ≤ 31 then
        some ((yn : Int) * 10000 + (mn : Int) * 100 + (dn : Int))
      else none
    | _, _, _ => none
  | _ => none

/-- `update_date` handling in `_process_active_papers_batch`: the empty string
is falsy and skipped; otherwise the date parse is attempted. -/
def parseUpdateDate (s : String) : Option Int :=
  if s = "" then none else parseDateYMD s

/-- The `SET` clause of the paper MERGE: overwrites every scalar field and the
`last_modified` bookkeeping timestamp, leaving `arxiv_id` and `openalex_id`
untouched. -/
def updateScalars (p : Paper) (d : PaperData) (now : Int) : Paper :=
  { p with
    title := d.title
    abstract := d.abstract
    submitter := d.submitter
    journal_ref := d.journal_ref
    doi := d.doi
    report_no := d.report_no
    license := d.license
    update_date := parseUpdateDate d.update_date
    last_modified := some now }

/-- Node created by `MERGE (p:Paper {arxiv_id: ...})` when no match exists,
after the `SET` clause ran on it. -/
def newPaper (d : PaperData) (now : Int) : Paper :=
  updateScalars { arxiv_id := d.id.getD "" } d now

/-- One UNWIND row of the paper MERGE statement. -/
def mergePaper (papers : List Paper) (d : PaperData) (now : Int) : List Paper :=
  if papers.any (fun p => p.arxiv_id == d.id.getD "") then
    papers.map (fun p => if p.arxiv_id == d.id.getD "" then updateScalars p d now else p)
  else papers ++ [newPaper d now]

/-- `MERGE (a:Author {name: ...})`. -/
def mergeAuthor (authors : List String) (n : String) : List String :=
  if authors.contains n then authors else authors ++ [n]

/-- `MERGE (c:Category {id: ...}) SET c.name = ...` where the name written is
always the category id itself. -/
def mergeCategory (cats : List (String × String)) (cid : String) : List (String × String) :=
  if cats.any (fun c => c.1 == cid) then
    cats.map (fun c => if c.1 == cid then (c.1, cid) else c)
  else cats ++ [(cid, cid)]

/-- Full display name built from one `authors_parsed` entry
(`[last, first, suffix]`). -/
def authorFullName (a : List String) : String :=
  let last_name := a.getD 0 ""
  let first_name := a.getD 1 ""
  let suffix := a.getD 2 ""
  let full := pyStrip (first_name ++ " " ++ last_name)
  if suffix ≠ "" then full ++ " " ++ suffix else full

/-- Author names a record contributes: empty display names are skipped. -/
def authorNames (p : PaperData) : List String :=
  (p.authors_parsed.map authorFullName).filter (fun n => n ≠ "")

/-- Category ids a record contributes: the space-separated `categories` string
split, trimmed, empties dropped. -/
def paperCategories (p : PaperData) : List String :=
  if p.categories ≠ "" then
    ((pySplitChar ' ' p.categories).map pyStrip).filter (fun c => c ≠ "")
  else []

/-- Bulk deletion of the WROTE edges into the given papers. -/
def deleteWroteFor (wrote : List (String × String)) (pids : List String) :
    List (String × String) :=
  wrote.filter (fun e => !(pids.contains e.2))

/-- Bulk deletion of the HAS_CATEGORY edges out of the given papers. -/
def deleteHasCatFor (hc : List (String × String)) (pids : List String) :
    List (String × String) :=
  hc.filter (fun e => !(pids.contains e.1))

/-- One row of `MATCH (a:Author) MATCH (p:Paper) MERGE (a)-[:WROTE]->(p)`:
the edge appears when both endpoints match and it is not already present. -/
def insertWrote (papers : List Paper) (authors : List String)
    (wrote : List (String × String)) (rel : String × String) : List (String × String) :=
  if authors.contains rel.1 && papers.any (fun p => p.arxiv_id == rel.2) &&
      !(wrote.contains rel) then
    wrote ++ [rel]
  else wrote

def createWrote (papers : List Paper) (authors : List String)
    (wrote : List (String × String)) (rels : List (String × String)) :
    List (String × String) :=
  rels.foldl (insertWrote papers authors) wrote

/-- One row of `MATCH (p:Paper) MATCH (c:Category) MERGE (p)-[:HAS_CATEGORY]->(c)`. -/
def insertHasCat (papers : List Paper) (cats : List (String × String))
    (hc : List (String × String)) (rel : String × String) : List (String × String) :=
  if papers.any (fun p => p.arxiv_id == rel.1) && cats.any (fun c => c.1 == rel.2) &&
      !(hc.contains rel) then
    hc ++ [rel]
  else hc

def createHasCat (papers : List Paper) (cats : List (String × String))
    (hc : List (String × String)) (rels : List (String × String)) :
    List (String × String) :=
  rels.foldl (insertHasCat papers cats) hc

/-- The `author_relationships` rows a batch builds: one `(full name, paper id)`
pair per non-empty author name, in batch order. -/
def authorRelsOf (batch : List PaperData) : List (String × String) :=
  batch.flatMap (fun p => (authorNames p).map (fun n => (n, p.id.getD "")))

/-- The `category_relationships` rows a batch builds: one
`(paper id, category id)` pair per parsed category, in batch order. -/
def catRelsOf (batch : List PaperData) : List (String × String) :=
  batch.flatMap (fun p => (paperCategories p).map (fun c => (p.id.getD "", c)))

/-- `_process_active_papers_batch` after its pure preprocessing succeeded:
paper upserts, author and category merges, then the replace-wholesale edge
reconciliation, each edge-phase guarded by the corresponding non-empty
relationship list. -/
def applyActiveBatch (g : GraphStore) (batch : List PaperData) (now : Int) : GraphStore :=
  { g with
    papers := batch.foldl (fun ps p => mergePaper ps p now) g.papers
    authors := ((authorRelsOf batch).map (fun r => r.1)).foldl mergeAuthor g.authors
    categories := ((catRelsOf batch).map (fun r => r.2)).foldl mergeCategory g.categories
    wrote :=
      if (authorRelsOf batch).isEmpty then g.wrote
      else createWrote
        (batch.foldl (fun ps p => mergePaper ps p now) g.papers)
        (((authorRelsOf batch).map (fun r => r.1)).foldl mergeAuthor g.authors)
        (deleteWroteFor g.wrote ((authorRelsOf batch).map (fun r => r.2)))
        (authorRelsOf batch)
    hasCategory :=
      if (catRelsOf batch).isEmpty then g.hasCategory
      else createHasCat
        (batch.foldl (fun ps p => mergePaper ps p now) g.papers)
        (((catRelsOf batch).map (fun r => r.2)).foldl mergeCategory g.categories)
        (deleteHasCatFor g.hasCategory ((catRelsOf batch).map (fun r => r.1)))
        (catRelsOf batch) }

/-- `_process_active_papers_batch`: a record whose `id` is missing makes the
first bulk statement a `MERGE` on a null key, which the store rejects; the
failure happens on the first statement, so the store is unchanged.  Otherwise
the batch applies. -/
def processActivePapersBatch (g : GraphStore) (batch : List PaperData) (now : Int) :
    Option GraphStore :=
  if batch.any (fun p => p.id.isNone) then none
  else some (applyActiveBatch g batch now)

/-- `delete_paper`: `MATCH (p:Paper {arxiv_id: $id}) DETACH DELETE p` returning
the matched-node count.  A null id matches nothing; when nodes match, they and
every incident WROTE / HAS_CATEGORY / CITES edge are removed. -/
def deletePaper (g : GraphStore) (aid : Option String) : GraphStore × Nat :=
  match aid with
  | none => (g, 0)
  | some a =>
    let n := g.papers.countP (fun p => p.arxiv_id == a)
    if n == 0 then (g, 0)
    else
      ({ g with
          papers := g.papers.filter (fun p => !(p.arxiv_id == a)),
          wrote := g.wrote.filter (fun e => !(e.2 == a)),
          hasCategory := g.hasCategory.filter (fun e => !(e.1 == a)),
          cites := g.cites.filter (fun e => !(e.1 == a) && !(e.2 == a)) }, n)

/-- Run statistics returned by `upsert_paper_batch`. -/
structure UpdateStats where
  updated : Nat
  deleted : Nat
  errors : Nat
deriving DecidableEq, Repr

/-- Store-failure environment: `deleteFault i` makes the i-th per-record
deletion call raise; `activeFault` makes the active-batch processing raise. -/
structure StoreFaults where
  deleteFault : Nat → Bool
  activeFault : Bool

def noFaults : StoreFaults := ⟨fun _ => false, false⟩

/-- The per-record deletion loop of `upsert_paper_batch`: each record counts 1
deleted when its call returns (whatever the call matched) and 1 error when it
raises. -/
def runDeletes (faults : StoreFaults) (g : GraphStore) (i : Nat) :
    List PaperData → GraphStore × Nat × Nat
  | [] => (g, 0, 0)
  | r :: rest =>
    if faults.deleteFault i then
      ((runDeletes faults g (i + 1) rest).1,
       (runDeletes faults g (i + 1) rest).2.1,
       (runDeletes faults g (i + 1) rest).2.2 + 1)
    else
      ((runDeletes faults (deletePaper g r.id).1 (i + 1) rest).1,
       (runDeletes faults (deletePaper g r.id).1 (i + 1) rest).2.1 + 1,
       (runDeletes faults (deletePaper g r.id).1 (i + 1) rest).2.2)

/-- `upsert_paper_batch`: empty batches short-circuit; the batch is partitioned
by the deleted flag, deletions run record by record, then the active records
run as one all-or-nothing sub-batch. -/
def upsertPaperBatch (faults : StoreFaults) (g : GraphStore) (batch : List PaperData)
    (now : Int) : GraphStore × UpdateStats :=
  if batch.isEmpty then (g, ⟨0, 0, 0⟩)
  else
    let deletedRecs := batch.filter PaperData.isDeleted
    let activeRecs := batch.filter (fun p => !(p.isDeleted))
    let dres := runDeletes faults g 0 deletedRecs
    if activeRecs.isEmpty then (dres.1, ⟨0, dres.2.1, dres.2.2⟩)
    else if faults.activeFault then (dres.1, ⟨0, dres.2.1, dres.2.2 + activeRecs.length⟩)
    else
      match processActivePapersBatch dres.1 activeRecs now with
      | some g₂ => (g₂, ⟨activeRecs.length, dres.2.1, dres.2.2⟩)
      | none => (dres.1, ⟨0, dres.2.1, dres.2.2 + activeRecs.length⟩)

/-- `get_last_update_timestamp`: the ledger value when stored, else the maximum
non-null Paper `update_date`, else now minus 7 days (timestamps in seconds). -/
def getLastUpdateTimestamp (g : GraphStore) (now : Int) : Int :=
  match g.updateLog with
  | some t => t
  | none =>
    match (g.papers.filterMap (fun p => p.update_date)).max? with
    | some m => m
    | none => now - 7 * 86400

/-- Parsed OAI-PMH record (the dict produced by `_parse_record`).  A deleted
record carries only identifier, datestamp and the deletion flag: in
particular it has NO `arxiv_id` key, which is faithful to the source. -/
structure OAIRecord where
  identifier : String
  datestamp : String
  status : String
  arxiv_id : Option String := none
  title : Option StrOrList := none
  description : Option StrOrList := none
  creator : Option StrOrList := none
  sets : List String := []
deriving DecidableEq, Repr

/-- Raw OAI-PMH record header.  An element is `none` when absent from the XML;
present elements are modelled with their (non-null) text. -/
structure RawHeader where
  identifier : Option String
  datestamp : Option String
  status : Option String := none
  setSpecs : List String := []
deriving DecidableEq, Repr

/-- Raw OAI-PMH record: header plus the `oai_dc:dc` children as ordered
(tag, text) pairs; `dc = none` when the metadata or dc element is absent. -/
structure RawRecord where
  header : Option RawHeader
  dc : Option (List (String × String)) := none
deriving DecidableEq, Repr

/-- Value of one Dublin-Core tag after `_parse_dublin_core`'s merge loop: a
single occurrence stays a string, repeats collapse into an ordered list. -/
def dcField (dc : List (String × String)) (tag : String) : Option StrOrList :=
  match (dc.filter (fun c => c.1 == tag)).map (fun c => c.2) with
  | [] => none
  | [x] => some (.str x)
  | xs => some (.list xs)

/-- `_parse_dublin_core`: identifier, datestamp and active status, the
`arxiv_id` extracted from the identifier when it contains a colon, the
Dublin-Core fields, and the header setSpecs. -/
def parseDublinCore (h : RawHeader) (dc : List (String × String)) : Option OAIRecord :=
  match h.identifier, h.datestamp with
  | some i, some d =>
    some { identifier := i
           datestamp := d
           status := "active"
           arxiv_id := if i.data.contains ':' then some ((pySplitChar ':' i).getLastD "") else none
           title := dcField dc "title"
           description := dcField dc "description"
           creator := dcField dc "creator"
           sets := h.setSpecs }
  | _, _ => none

/-- `_parse_record`: no header parses to nothing; a header flagged deleted
short-circuits to the three-field deleted record; otherwise the Dublin-Core
metadata is required.  A missing identifier or datestamp raises inside the
guarded block and yields nothing. -/
def parseRecord (r : RawRecord) : Option OAIRecord :=
  match r.header with
  | none => none
  | some h =>
    if h.status == some "deleted" then
      match h.identifier, h.datestamp with
      | some i, some d => some { identifier := i, datestamp := d, status := "deleted" }
      | _, _ => none
    else
      match r.dc with
      | none => none
      | some dc => parseDublinCore h dc

/-- The multi-creator branch of `convert_oai_record_to_paper_data`: each
creator is stripped and whitespace-split into a `[last, first, suffix]` entry;
a creator whose split is empty contributes nothing. -/
def parsedAuthorsOfList (creators : List String) : List (List String) :=
  creators.flatMap (fun c =>
    let parts := pySplitWs (pyStrip c)
    if parts.length ≥ 2 then
      [[parts.getLastD "", pyJoin " " parts.dropLast, ""]]
    else if parts.length = 1 then [[parts.getD 0 "", "", ""]]
    else [])

/-- The single-creator branch: an empty creator yields no author; a creator
with at least two parts is split; otherwise the RAW creator string becomes the
last name. -/
def parsedAuthorsOfStr (creators : String) : List (List String) :=
  if creators ≠ "" then
    let parts := pySplitWs (pyStrip creators)
    if parts.length ≥ 2 then
      [[parts.getLastD "", pyJoin " " parts.dropLast, ""]]
    else [[creators, "", ""]]
  else []

/-- `convert_oai_record_to_paper_data`: a deleted record maps to just
`{id, status}` where `id` is the record's `arxiv_id` value (absent for records
that came through `_parse_record`); an active record maps Dublin-Core fields
onto the paper-data shape and synthesizes `authors_parsed` from the creator
field, branching on whether that field is a list. -/
def convertOaiRecordToPaperData (r : OAIRecord) : Option PaperData :=
  if r.status == "deleted" then
    some { id := r.arxiv_id, status := some "deleted" }
  else
    let creatorVal := r.creator.getD (.str "")
    some { id := r.arxiv_id
           title := r.title.getD (.str "")
           abstract := r.description.getD (.str "")
           categories := pyJoin " " r.sets
           update_date := r.datestamp
           submitter := creatorVal
           authors := match creatorVal with
                      | .list l => pyJoin ", " l
                      | .str s => s
           authors_parsed := match r.creator with
                             | some (.list l) => parsedAuthorsOfList l
                             | some (.str s) => parsedAuthorsOfStr s
                             | none => parsedAuthorsOfList [] }

/-- The orchestrator's per-batch conversion (`run_incremental_update`): convert
each harvested record, drop the ones that fail, and upsert the result. -/
def processOaiBatch (faults : StoreFaults) (g : GraphStore) (records : List OAIRecord)
    (now : Int) : GraphStore × UpdateStats :=
  upsertPaperBatch faults g (records.filterMap convertOaiRecordToPaperData) now

/-- One `list_records` result as seen by the harvesting loop: the parsed
records of the page and the (possibly absent) resumption token. -/
structure HarvestResponse where
  records : List OAIRecord
  token : Option String
deriving DecidableEq, Repr

/-- Outcome of one page attempt: a response, or an exception (network,
protocol or parse failure) raised by `list_records`. -/
inductive HarvestOutcome where
  | ok (r : HarvestResponse)
  | fail
deriving DecidableEq, Repr

/-- Observable events of the harvesting loop: a page request, the fixed
rate-limit sleep (1 second), and the fixed error cool-down sleep (60 seconds). -/
inductive Ev where
  | request
  | sleepRate
  | sleepCool
deriving DecidableEq, Repr

/-- `harvest_incremental` driven by a finite script of page outcomes: returns
the event trace and the yielded batches.  `count` is `request_count`, which is
incremented only for pages that return; the rate-limit sleep fires at the top
of an iteration when `count` is a positive multiple of 4; an empty record list
or an absent token ends the loop; an exception sleeps the cool-down and
retries with `count` unchanged. -/
def harvestRun (count : Nat) : List HarvestOutcome → List Ev × List (List OAIRecord)
  | [] => ([], [])
  | o :: rest =>
    let pre : List Ev := if 0 < count ∧ count % 4 = 0 then [.sleepRate] else []
    match o with
    | .fail =>
      (pre ++ Ev.request :: Ev.sleepCool :: (harvestRun count rest).1,
       (harvestRun count rest).2)
    | .ok resp =>
      if resp.records.isEmpty then (pre ++ [Ev.request], [])
      else if resp.token.isNone then (pre ++ [Ev.request], [resp.records])
      else (pre ++ Ev.request :: (harvestRun (count + 1) rest).1,
            resp.records :: (harvestRun (count + 1) rest).2)

/-- Slim OpenAlex work record: the fields the DOI and citation loaders read. -/
structure OpenAlexWork where
  id : String
  doi : Option String := none
  referenced_works : List String := []
deriving DecidableEq, Repr

/-- `work.doi` truthiness: present and non-empty. -/
def OpenAlexWork.doiTruthy (w : OpenAlexWork) : Bool := w.doi.getD "" != ""

/-- DOI normalization shared by both matcher strategies: strip the fixed URL
prefix. -/
def cleanDoi (d : String) : String := pyReplaceDel d "https://doi.org/"

/-- `_load_neo4j_dois`: the DOIs of all Papers whose `doi` is non-null and
non-empty, pre-loaded once per run. -/
def neo4jDois (g : GraphStore) : List String :=
  (g.papers.filterMap (fun p => p.doi)).filter (fun d => d ≠ "")

/-- One UNWIND row of the write-back statement shared by both loaders:
`MATCH (p:Paper {doi: ...}) SET p.openalex_id = ...`. -/
def applyDoiUpdate (g : GraphStore) (u : String × String) : GraphStore :=
  { g with papers := g.papers.map (fun p =>
      if p.doi == some u.1 then { p with openalex_id := some u.2 } else p) }

/-- `_process_batch_bulk` / `_process_batch_fast`: the rows of one batch are
applied in order. -/
def runDoiUpdates (g : GraphStore) (updates : List (String × String)) : GraphStore :=
  updates.foldl applyDoiUpdate g

/-- The streaming loop of `process_file_optimized` (client-side set lookup):
a work with truthy doi and id is cleaned and added to the batch only when its
cleaned DOI is in the pre-loaded set; the batch is flushed at `bs`. -/
def optimizedLoop (dois : List String) (bs : Nat) :
    GraphStore → List (String × String) → List OpenAlexWork → GraphStore
  | g, batch, [] => runDoiUpdates g batch
  | g, batch, w :: ws =>
    if w.doiTruthy && w.id != "" then
      let d := cleanDoi (w.doi.getD "")
      let batch₁ := if dois.contains d then batch ++ [(d, w.id)] else batch
      if bs ≤ batch₁.length then optimizedLoop dois bs (runDoiUpdates g batch₁) [] ws
      else optimizedLoop dois bs g batch₁ ws
    else optimizedLoop dois bs g batch ws

/-- `process_file_optimized` with the key set loaded once from the store. -/
def processFileOptimized (g : GraphStore) (works : List OpenAlexWork) (bs : Nat) :
    GraphStore :=
  optimizedLoop (neo4jDois g) bs g [] works

/-- The streaming loop of `process_file_fast` (store-side filtering): every
work with truthy doi and id is added to the batch; the store's MATCH does the
filtering. -/
def fastLoop (bs : Nat) :
    GraphStore → List (String × String) → List OpenAlexWork → GraphStore
  | g, batch, [] => runDoiUpdates g batch
  | g, batch, w :: ws =>
    if w.doiTruthy && w.id != "" then
      let batch₁ := batch ++ [(cleanDoi (w.doi.getD ""), w.id)]
      if bs ≤ batch₁.length then fastLoop bs (runDoiUpdates g batch₁) [] ws
      else fastLoop bs g batch₁ ws
    else fastLoop bs g batch ws

/-- `process_file_fast`. -/
def processFileFast (g : GraphStore) (works : List OpenAlexWork) (bs : Nat) : GraphStore :=
  fastLoop bs g [] works

/-- `_load_neo4j_openalex_ids`: the non-null, non-empty `openalex_id` keys of
all Papers, pre-loaded once per citation run. -/
def neo4jOpenalexIds (g : GraphStore) : List String :=
  (g.papers.filterMap (fun p => p.openalex_id)).filter (fun d => d ≠ "")

/-- The CITES edges one candidate pair resolves to: every Paper matching the
citing `openalex_id` crossed with every Paper matching the cited one. -/
def citationEdges (papers : List Paper) (c : String × String) : List (String × String) :=
  (papers.filter (fun p => p.openalex_id == some c.1)).flatMap (fun pc =>
    (papers.filter (fun p => p.openalex_id == some c.2)).map (fun pd =>
      (pc.arxiv_id, pd.arxiv_id)))

/-- MERGE semantics of an edge list: append each edge not already present. -/
def insertEdges (base new : List (String × String)) : List (String × String) :=
  new.foldl (fun cs e => if cs.contains e then cs else cs ++ [e]) base

/-- One UNWIND row of `_create_citation_batch`: MATCH both endpoints by
`openalex_id` and MERGE the CITES edge for every matched pair. -/
def insertCitation (g : GraphStore) (c : String × String) : GraphStore :=
  { g with cites := insertEdges g.cites (citationEdges g.papers c) }

/-- `_create_citation_batch`: the rows of one batch are merged in order. -/
def createCitationBatch (g : GraphStore) (citations : List (String × String)) : GraphStore :=
  citations.foldl insertCitation g

/-- The streaming loop of `process_file_citations`: a work contributes
candidate pairs only when its id is truthy, its reference list non-empty and
its id in the pre-loaded set; each reference in the set becomes one pair, and
the batch is flushed at `bs` and once more at end of stream. -/
def citeLoop (ids : List String) (bs : Nat) :
    GraphStore → List (String × String) → List OpenAlexWork → GraphStore
  | g, batch, [] => createCitationBatch g batch
  | g, batch, w :: ws =>
    if w.id != "" && !(w.referenced_works.isEmpty) && ids.contains w.id then
      let batch₁ := batch ++
        (w.referenced_works.filter (fun r => ids.contains r)).map (fun r => (w.id, r))
      if bs ≤ batch₁.length then citeLoop ids bs (createCitationBatch g batch₁) [] ws
      else citeLoop ids bs g batch₁ ws
    else citeLoop ids bs g batch ws

/-- `process_file_citations` with the key set loaded once from the store. -/
def processFileCitations (g : GraphStore) (works : List OpenAlexWork) (bs : Nat) :
    GraphStore :=
  citeLoop (neo4jOpenalexIds g) bs g [] works

/-- The candidate pairs gate of the citation builder, as one list: work id
truthy, reference list non-empty, work id in the set, reference in the set. -/
def citationCandidates (ids : List String) (works : List OpenAlexWork) :
    List (String × String) :=
  works.flatMap (fun w =>
    if w.id != "" && !(w.referenced_works.isEmpty) && ids.contains w.id then
      (w.referenced_works.filter (fun r => ids.contains r)).map (fun r => (w.id, r))
    else [])

/-! Concrete fixtures used by closed theorems. -/

def c1recA : PaperData := { id := some "x", authors_parsed := [["A"]] }

def c1recB : PaperData := { id := some "x", authors_parsed := [["B"]] }

def c2rec : PaperData := { id := some "x", title := .str "T" }

def c3delRec : PaperData := { id := some "x", status := some "deleted" }

def c4raw1 : RawRecord :=
  { header := some { identifier := some "oai:arXiv.org:1001.0001",
                     datestamp := some "2024-01-01" },
    dc := some [("title", "A"), ("creator", "Jane Q. Doe")] }

def c4raw2 : RawRecord :=
  { header := some { identifier := some "oai:arXiv.org:1001.0002",
                     datestamp := some "2024-01-01", status := some "deleted" } }

def c4store : GraphStore :=
  { papers := [{ arxiv_id := "1001.0002" }],
    authors := ["Old Author"],
    wrote := [("Old Author", "1001.0002"), ("Old Author", "1001.0001")] }

def c5store : GraphStore := { papers := [{ arxiv_id := "p1", doi := some "" }] }

def c5work : OpenAlexWork := { id := "W1", doi := some "https://doi.org/" }

def c8resp1 : HarvestResponse := { records := [], token := some "t" }

def c8resp2 : HarvestResponse :=
  { records := [{ identifier := "i", datestamp := "d", status := "active" }], token := none }

/-- C1 counterexample: in a successfully applied batch holding two active
records for the same paper key `x`, one with author list `[A]` and one with
`[B]`, the incoming WROTE edges of `x` afterwards are `A` and `B` together —
not exactly the edges implied by the first record's author list, although that
record is active with a non-empty author list. -/
theorem c1_counterexample :
    (processActivePapersBatch emptyStore [c1recA, c1recB] 0).isSome = true
    ∧ c1recA ∈ [c1recA, c1recB]
    ∧ c1recA.isDeleted = false
    ∧ authorNames c1recA ≠ []
    ∧ ¬ (((processActivePapersBatch emptyStore [c1recA, c1recB] 0).getD emptyStore).wrote.filter
          (fun e => e.2 == "x") = (authorNames c1recA).map (fun n => (n, "x"))) := by
  decide

/-- C2 counterexample: re-running the engine on the identical all-active batch
does change a scalar field of the affected node — the second run overwrites
`last_modified` with its own clock, so the resulting state differs from the
single-run state whenever the clocks differ. -/
theorem c2_counterexample :
    (∀ p ∈ [c2rec], p.isDeleted = false)
    ∧ (upsertPaperBatch noFaults (upsertPaperBatch noFaults emptyStore [c2rec] 0).1 [c2rec] 1).1
        ≠ (upsertPaperBatch noFaults emptyStore [c2rec] 0).1 := by
  decide

/-- C3 counterexample: deleting a key for which no Paper node exists is
reported by the run as 1 deleted, not 0 — the per-record counter increments
whenever the deletion call returns, regardless of whether a node was found. -/
theorem c3_counterexample :
    emptyStore.papers = []
    ∧ (upsertPaperBatch noFaults emptyStore [c3delRec] 0).2.deleted = 1 := by
  decide

/-- C5 counterexample: on a store holding a Paper whose `doi` is the empty
string and a work whose DOI normalizes to the empty string, store-side
filtering writes an `openalex_id` that the client-side set lookup (whose
pre-load excludes empty DOIs) does not — the two strategies disagree. -/
theorem c5_counterexample :
    processFileOptimized c5store [c5work] 5000 ≠ processFileFast c5store [c5work] 10000 := by
  decide

/-- C8 counterexample: a response that carries a continuation token but no
records ends the harvest immediately — only one page request is issued, so a
token-bearing response is not always followed by a further page request. -/
theorem c8_counterexample :
    c8resp1.token.isSome = true
    ∧ ((harvestRun 0 [.ok c8resp1, .ok c8resp2]).1.count .request) = 1 := by
  decide

/-- C4: evaluating the full pipeline (parse → convert → upsert) on the
scenario's two harvest records, against a store where Paper 1001.0002
pre-exists: the active record does yield exactly one Paper 1001.0001 with the
single Author `Jane Q. Doe` and its WROTE edge, but the deleted record is
parsed WITHOUT an `arxiv_id`, converts to a null-keyed deletion that matches
no node, and Paper 1001.0002 survives the batch (while still being counted as
deleted) — contradicting the claimed end state. -/
theorem c4_pipeline_deleted_record_survives :
    (((processOaiBatch noFaults c4store ([c4raw1, c4raw2].filterMap parseRecord) 5).1).papers.countP
        (fun p => p.arxiv_id == "1001.0001") = 1)
    ∧ ((processOaiBatch noFaults c4store ([c4raw1, c4raw2].filterMap parseRecord) 5).1).authors.contains
        "Jane Q. Doe" = true
    ∧ ((processOaiBatch noFaults c4store ([c4raw1, c4raw2].filterMap parseRecord) 5).1).wrote.filter
        (fun e => e.2 == "1001.0001") = [("Jane Q. Doe", "1001.0001")]
    ∧ (((processOaiBatch noFaults c4store ([c4raw1, c4raw2].filterMap parseRecord) 5).1).papers.countP
        (fun p => p.arxiv_id == "1001.0002") = 1)
    ∧ (processOaiBatch noFaults c4store ([c4raw1, c4raw2].filterMap parseRecord) 5).2.deleted = 1 := by
  decide

/-- C7: the three-tier fallback of `get_last_update_timestamp`: a stored ledger
value is returned as-is regardless of Paper dates; otherwise, when some Paper
has an `update_date`, the maximum such date over all Papers is returned;
otherwise now minus 7 days. -/
theorem c7_ledger_fallback_order (g : GraphStore) (now : Int) :
    (∀ t, g.updateLog = some t → getLastUpdateTimestamp g now = t)
    ∧ (g.updateLog = none → ∀ m,
        (g.papers.filterMap (fun p => p.update_date)).max? = some m →
          getLastUpdateTimestamp g now = m
          ∧ (∃ p ∈ g.papers, p.update_date = some m)
          ∧ ∀ p ∈ g.papers, ∀ d, p.update_date = some d → d ≤ m)
    ∧ (g.updateLog = none → (∀ p ∈ g.papers, p.update_date = none) →
        getLastUpdateTimestamp g now = now - 7 * 86400) := by
  refine ⟨fun t ht => by simp [getLastUpdateTimestamp, ht], fun hlog m hm => ?_, fun hlog hnone => ?_⟩
  · haveI : Std.Antisymm (fun a b : Int => a ≤ b) := ⟨fun h1 h2 => le_antisymm h1 h2⟩
    have hiff := (List.max?_eq_some_iff (α := Int) (fun a => le_refl a)
      (fun a b => max_choice a b) (fun a b c => max_le_iff)).mp hm
    refine ⟨by simp [getLastUpdateTimestamp, hlog, hm], ?_, ?_⟩
    · exact List.mem_filterMap.mp hiff.1
    · intro p hp d hd
      exact hiff.2 d (List.mem_filterMap.mpr ⟨p, hp, hd⟩)
  · have hnil : g.papers.filterMap (fun p => p.update_date) = [] :=
      List.filterMap_eq_nil_iff.mpr hnone
    simp [getLastUpdateTimestamp, hlog, hnil]

/-- C7 witness: the three tiers evaluated on concrete stores. -/
theorem c7_ledger_fallback_order_witness :
    getLastUpdateTimestamp { updateLog := some 42 } 0 = 42
    ∧ getLastUpdateTimestamp { papers := [{ arxiv_id := "a", update_date := some 5 },
        { arxiv_id := "b", update_date := some 9 }] } 0 = 9
    ∧ getLastUpdateTimestamp {} 1000000 = 1000000 - 7 * 86400 := by
  refine ⟨(c7_ledger_fallback_order _ 0).1 42 rfl,
    ((c7_ledger_fallback_order _ 0).2.1 rfl 9 (by decide)).1,
    (c7_ledger_fallback_order _ 1000000).2.2 rfl (by decide)⟩

lemma count_req_pre (c : Prop) [Decidable c] :
    ((if c then [Ev.sleepRate] else [] : List Ev).count Ev.request) = 0 := by
  split <;> simp

lemma harvestRun_request_count (count : Nat) (rs : List HarvestResponse) :
    ((harvestRun count (rs.map HarvestOutcome.ok)).1.count Ev.request)
      = min (rs.findIdx (fun r => r.records.isEmpty || r.token.isNone) + 1) rs.length := by
  induction rs generalizing count with
  | nil => simp [harvestRun]
  | cons r rest ih =>
    simp only [List.map_cons, harvestRun]
    by_cases he : r.records.isEmpty
    · simp [he, count_req_pre, List.findIdx_cons, List.count_cons]
    · by_cases ht : r.token.isNone
      · simp [he, ht, count_req_pre, List.findIdx_cons, List.count_cons]
      · simp only [he, ht, if_false, Bool.false_or, List.findIdx_cons]
        simp [count_req_pre, List.count_cons, ih, he, ht]
        omega

/-- C8 (amended): the harvesting loop consumes exactly the pages up to and
including the first response that carries no records or no continuation token:
the number of page requests issued equals the index of that response plus one
(or the whole script when no response terminates it).  In particular every
earlier response carried both records and a token and was followed by a
further page request. -/
theorem c8_harvest_termination (rs : List HarvestResponse) :
    ((harvestRun 0 (rs.map HarvestOutcome.ok)).1.count Ev.request)
      = min (rs.findIdx (fun r => r.records.isEmpty || r.token.isNone) + 1) rs.length :=
  harvestRun_request_count 0 rs

/-- Length of the leading run of page-request events of a trace. -/
def reqRun : List Ev → Nat
  | [] => 0
  | Ev.request :: rest => reqRun rest + 1
  | Ev.sleepRate :: _ => 0
  | Ev.sleepCool :: _ => 0

/-- Longest run of consecutive page-request events anywhere in a trace. -/
def maxRun : List Ev → Nat
  | [] => 0
  | e :: rest => max (reqRun (e :: rest)) (maxRun rest)

lemma reqRun_le_maxRun (l : List Ev) : reqRun l ≤ maxRun l := by
  cases l with
  | nil => exact le_refl 0
  | cons e rest => exact le_max_left _ _

lemma reqRun_le_maxRun_append (s m : List Ev) : reqRun m ≤ maxRun (s ++ m) := by
  induction s with
  | nil => simpa using reqRun_le_maxRun m
  | cons a s ih =>
    simp only [List.cons_append, maxRun]
    exact ih.trans (le_max_right _ _)

/-- Requests still allowed before the next rate-limit sleep, given the current
`request_count`. -/
def runBudget (count : Nat) : Nat := if count = 0 then 4 else (4 - count % 4) % 4

lemma runBudget_succ_le (count : Nat) : runBudget (count + 1) ≤ 3 := by
  simp only [runBudget, Nat.succ_ne_zero, if_false]
  omega

lemma runBudget_step (count : Nat) (h : ¬(0 < count ∧ count % 4 = 0)) :
    runBudget (count + 1) + 1 ≤ runBudget count := by
  simp only [runBudget, Nat.succ_ne_zero, if_false]
  by_cases h0 : count = 0
  · subst h0; norm_num
  · simp only [h0, if_false]
    omega

lemma runBudget_eq_zero (count : Nat) (h : 0 < count ∧ count % 4 = 0) :
    runBudget count = 0 := by
  simp only [runBudget]
  rw [if_neg (by omega)]
  omega

lemma harvestRun_run_bounds (outs : List HarvestOutcome) (count : Nat) :
    maxRun (harvestRun count outs).1 ≤ 4 ∧ reqRun (harvestRun count outs).1 ≤ runBudget count := by
  induction outs generalizing count with
  | nil => simp [harvestRun, maxRun, reqRun]
  | cons o rest ih =>
    have hb3 := runBudget_succ_le count
    by_cases hc : 0 < count ∧ count % 4 = 0
    · have hz := runBudget_eq_zero count hc
      cases o with
      | fail =>
        obtain ⟨hm, hr⟩ := ih count
        simp only [harvestRun, if_pos hc, List.singleton_append, maxRun, reqRun]
        omega
      | ok resp =>
        by_cases he : resp.records.isEmpty
        · simp only [harvestRun, if_pos hc, he, if_true, List.singleton_append, maxRun, reqRun]
          omega
        · by_cases ht : resp.token.isNone
          · simp only [harvestRun, if_pos hc, he, ht, if_true, if_false, Bool.false_eq_true,
              List.singleton_append, maxRun, reqRun]
            omega
          · obtain ⟨hm, hr⟩ := ih (count + 1)
            simp only [harvestRun, if_pos hc, he, ht, if_false, Bool.false_eq_true,
              List.singleton_append, maxRun, reqRun]
            omega
    · have hstep := runBudget_step count hc
      cases o with
      | fail =>
        obtain ⟨hm, hr⟩ := ih count
        simp only [harvestRun, if_neg hc, List.nil_append, maxRun, reqRun]
        omega
      | ok resp =>
        by_cases he : resp.records.isEmpty
        · simp only [harvestRun, if_neg hc, he, if_true, List.nil_append, maxRun, reqRun]
          omega
        · by_cases ht : resp.token.isNone
          · simp only [harvestRun, if_neg hc, he, ht, if_true, if_false, Bool.false_eq_true,
              List.nil_append, maxRun, reqRun]
            omega
          · obtain ⟨hm, hr⟩ := ih (count + 1)
            simp only [harvestRun, if_neg hc, he, ht, if_false, Bool.false_eq_true,
              List.nil_append, maxRun, reqRun]
            omega

lemma all_req_reqRun (l u : List Ev) (h : ∀ e ∈ l, e = Ev.request) :
    reqRun (l ++ u) = l.length + reqRun u := by
  induction l with
  | nil => simp
  | cons e l ih =>
    have he : e = Ev.request := h e (List.mem_cons_self e l)
    subst he
    have ih' := ih (fun x hx => h x (List.mem_cons_of_mem _ hx))
    show reqRun (Ev.request :: (l ++ u)) = (Ev.request :: l).length + reqRun u
    simp only [reqRun, List.length_cons, ih']
    omega

/-- C9: the rate limiter holds on every run of the harvesting loop: any
contiguous segment of the loop's event trace consisting solely of page
requests has length at most 4 — five consecutive page requests with no
intervening pause (rate-limit sleep or error cool-down) never occur,
whatever the page outcomes. -/
theorem c9_rate_limit_pause (outs : List HarvestOutcome) (l : List Ev)
    (hsub : ∃ s u, (harvestRun 0 outs).1 = s ++ l ++ u)
    (hreq : ∀ e ∈ l, e = Ev.request) : l.length ≤ 4 := by
  obtain ⟨s, u, hsu⟩ := hsub
  have h1 : reqRun (l ++ u) = l.length + reqRun u := all_req_reqRun l u hreq
  have h2 : reqRun (l ++ u) ≤ maxRun (s ++ (l ++ u)) := reqRun_le_maxRun_append s (l ++ u)
  have h3 : maxRun (harvestRun 0 outs).1 ≤ 4 := (harvestRun_run_bounds outs 0).1
  rw [hsu, List.append_assoc] at h3
  omega

/-- C9 witness: on a concrete six-page script the trace is four requests, the
rate-limit sleep, then two more requests; the maximal all-request segment
(its first four events) has length exactly 4. -/
theorem c9_rate_limit_pause_witness :
    [Ev.request, Ev.request, Ev.request, Ev.request].length ≤ 4 := by
  refine c9_rate_limit_pause
    [HarvestOutcome.ok ⟨[⟨"i", "d", "active", none, none, none, none, []⟩], some "t1"⟩,
     HarvestOutcome.ok ⟨[⟨"i", "d", "active", none, none, none, none, []⟩], some "t2"⟩,
     HarvestOutcome.ok ⟨[⟨"i", "d", "active", none, none, none, none, []⟩], some "t3"⟩,
     HarvestOutcome.ok ⟨[⟨"i", "d", "active", none, none, none, none, []⟩], some "t4"⟩,
     HarvestOutcome.ok ⟨[⟨"i", "d", "active", none, none, none, none, []⟩], some "t5"⟩,
     HarvestOutcome.ok ⟨[⟨"i", "d", "active", none, none, none, none, []⟩], none⟩]
    [Ev.request, Ev.request, Ev.request, Ev.request]
    ⟨[], [Ev.sleepRate, Ev.request, Ev.request], by decide⟩
    (by intro e he; fin_cases he <;> rfl)

lemma runDeletes_counts (faults : StoreFaults) (g : GraphStore) (i : Nat)
    (recs : List PaperData) :
    (runDeletes faults g i recs).2.1 + (runDeletes faults g i recs).2.2 = recs.length
    ∧ (runDeletes faults g i recs).2.2 = ((List.range' i recs.length).countP faults.deleteFault) := by
  induction recs generalizing g i with
  | nil => simp [runDeletes]
  | cons r rest ih =>
    simp only [runDeletes, List.length_cons, List.range'_succ, List.countP_cons]
    by_cases hf : faults.deleteFault i
    · obtain ⟨h1, h2⟩ := ih g (i + 1)
      simp only [hf, if_true]
      omega
    · obtain ⟨h1, h2⟩ := ih (deletePaper g r.id).1 (i + 1)
      simp only [hf, if_false, Bool.false_eq_true]
      omega

lemma length_filter_partition (batch : List PaperData) :
    (batch.filter PaperData.isDeleted).length
      + (batch.filter (fun p => !(p.isDeleted))).length = batch.length := by
  induction batch with
  | nil => simp
  | cons r rest ih =>
    by_cases hd : r.isDeleted <;> simp [List.filter_cons, hd] <;> omega

/-- C10: the counters returned by `upsert_paper_batch` partition the batch:
with `k` the number of per-record deletion calls that raised, `deleted` is the
remaining deleted-flagged records, the active records all count as `updated`
or — exactly when the active sub-batch is non-empty and its processing fails —
all as `errors`, the three counters sum to the batch size, and an empty batch
reports all zeros. -/
theorem c10_stats_partition (faults : StoreFaults) (g : GraphStore)
    (batch : List PaperData) (now : Int) :
    ((upsertPaperBatch faults g batch now).2.updated
        + (upsertPaperBatch faults g batch now).2.deleted
        + (upsertPaperBatch faults g batch now).2.errors = batch.length)
    ∧ ((upsertPaperBatch faults g batch now).2.deleted
        + (List.range (batch.filter PaperData.isDeleted).length).countP faults.deleteFault
        = (batch.filter PaperData.isDeleted).length)
    ∧ (((upsertPaperBatch faults g batch now).2.updated
          = (batch.filter (fun p => !(p.isDeleted))).length
        ∧ (upsertPaperBatch faults g batch now).2.errors
          = (List.range (batch.filter PaperData.isDeleted).length).countP faults.deleteFault)
      ∨ ((upsertPaperBatch faults g batch now).2.updated = 0
        ∧ (upsertPaperBatch faults g batch now).2.errors
          = (List.range (batch.filter PaperData.isDeleted).length).countP faults.deleteFault
            + (batch.filter (fun p => !(p.isDeleted))).length
        ∧ batch.filter (fun p => !(p.isDeleted)) ≠ []))
    ∧ (batch = [] → (upsertPaperBatch faults g batch now).2 = ⟨0, 0, 0⟩) := by
  have hpart := length_filter_partition batch
  have hdel := runDeletes_counts faults g 0 (batch.filter PaperData.isDeleted)
  rw [← List.range_eq_range'] at hdel
  by_cases hb : batch.isEmpty
  · have hbe : batch = [] := List.isEmpty_iff.mp hb
    subst hbe
    simp [upsertPaperBatch]
  · simp only [upsertPaperBatch, hb, if_false, Bool.false_eq_true]
    by_cases ha : (batch.filter (fun p => !(p.isDeleted))).isEmpty
    · have hae : batch.filter (fun p => !(p.isDeleted)) = [] := List.isEmpty_iff.mp ha
      rw [hae, List.length_nil] at hpart
      simp only [ha, if_true]
      refine ⟨by omega, by omega, Or.inl ⟨by rw [hae, List.length_nil], by omega⟩, ?_⟩
      intro hbe
      exact absurd hbe (by simpa [List.isEmpty_iff] using hb)
    · have hane : batch.filter (fun p => !(p.isDeleted)) ≠ [] := by
        simpa [List.isEmpty_iff] using ha
      by_cases hf : faults.activeFault
      · simp only [ha, hf, if_true, if_false, Bool.false_eq_true]
        refine ⟨by omega, by omega, Or.inr ⟨by trivial, by omega, hane⟩, ?_⟩
        intro hbe
        exact absurd hbe (by simpa [List.isEmpty_iff] using hb)
      · simp only [ha, hf, if_false, Bool.false_eq_true]
        cases hpa : processActivePapersBatch
            (runDeletes faults g 0 (batch.filter PaperData.isDeleted)).1
            (batch.filter (fun p => !(p.isDeleted))) now with
        | none =>
          dsimp only
          refine ⟨by omega, by omega, Or.inr ⟨by trivial, by omega, hane⟩, ?_⟩
          intro hbe
          exact absurd hbe (by simpa [List.isEmpty_iff] using hb)
        | some g₂ =>
          dsimp only
          refine ⟨by omega, by omega, Or.inl ⟨by trivial, by omega⟩, ?_⟩
          intro hbe
          exact absurd hbe (by simpa [List.isEmpty_iff] using hb)

/-- C10 witness: a three-record batch (one active, one deleted-and-found, one
deleted key that is absent) with no store faults reports
updated 1, deleted 2, errors 0 — partitioning the batch. -/
theorem c10_stats_partition_witness :
    (upsertPaperBatch noFaults
        { papers := [{ arxiv_id := "y" }] }
        [{ id := some "a", authors_parsed := [["A"]] },
         { id := some "y", status := some "deleted" },
         { id := some "z", status := some "deleted" }] 0).2.updated
      + (upsertPaperBatch noFaults
        { papers := [{ arxiv_id := "y" }] }
        [{ id := some "a", authors_parsed := [["A"]] },
         { id := some "y", status := some "deleted" },
         { id := some "z", status := some "deleted" }] 0).2.deleted
      + (upsertPaperBatch noFaults
        { papers := [{ arxiv_id := "y" }] }
        [{ id := some "a", authors_parsed := [["A"]] },
         { id := some "y", status := some "deleted" },
         { id := some "z", status := some "deleted" }] 0).2.errors = 3 :=
  (c10_stats_partition noFaults { papers := [{ arxiv_id := "y" }] }
    [{ id := some "a", authors_parsed := [["A"]] },
     { id := some "y", status := some "deleted" },
     { id := some "z", status := some "deleted" }] 0).1

lemma noFaults_deletes (g : GraphStore) (recs : List PaperData) :
    (runDeletes noFaults g 0 recs).2.1 = recs.length := by
  have h := runDeletes_counts noFaults g 0 recs
  have hz : ((List.range' 0 recs.length).countP noFaults.deleteFault) = 0 := by
    simp [noFaults]
  omega

lemma upsert_deleted_count (g : GraphStore) (batch : List PaperData) (now : Int) :
    (upsertPaperBatch noFaults g batch now).2.deleted
      = (batch.filter PaperData.isDeleted).length := by
  by_cases hb : batch.isEmpty
  · have hbe : batch = [] := List.isEmpty_iff.mp hb
    subst hbe
    simp [upsertPaperBatch]
  · simp only [upsertPaperBatch, hb, if_false, Bool.false_eq_true]
    have hd := noFaults_deletes g (batch.filter PaperData.isDeleted)
    by_cases ha : (batch.filter (fun p => !(p.isDeleted))).isEmpty
    · simp only [ha, if_true]
      exact hd
    · have hf : noFaults.activeFault = false := rfl
      simp only [ha, hf, if_false, Bool.false_eq_true]
      cases hpa : processActivePapersBatch
          (runDeletes noFaults g 0 (batch.filter PaperData.isDeleted)).1
          (batch.filter (fun p => !(p.isDeleted))) now with
      | none => exact hd
      | some g₂ => exact hd

/-- C3 (amended): a deletion detach-deletes every Paper node keyed by the
record's key together with all incident WROTE/HAS_CATEGORY/CITES edges,
deleting an absent key is not an error and leaves the store unchanged, and a
second delete of the same key is a no-op whose statement matches 0 nodes — but
the run's `deleted` counter counts every deleted-flagged record whose call
returned, whether or not a node existed. -/
theorem c3_deletion_detach (g : GraphStore) (aid : String) (batch : List PaperData)
    (now : Int) :
    (∀ p ∈ (deletePaper g (some aid)).1.papers, p.arxiv_id ≠ aid)
    ∧ ((∃ p ∈ g.papers, p.arxiv_id = aid) →
        (deletePaper g (some aid)).1.wrote = g.wrote.filter (fun e => !(e.2 == aid))
        ∧ (deletePaper g (some aid)).1.hasCategory
            = g.hasCategory.filter (fun e => !(e.1 == aid))
        ∧ (deletePaper g (some aid)).1.cites
            = g.cites.filter (fun e => !(e.1 == aid) && !(e.2 == aid)))
    ∧ ((∀ p ∈ g.papers, p.arxiv_id ≠ aid) → deletePaper g (some aid) = (g, 0))
    ∧ deletePaper (deletePaper g (some aid)).1 (some aid) = ((deletePaper g (some aid)).1, 0)
    ∧ (upsertPaperBatch noFaults g batch now).2.deleted
        = (batch.filter PaperData.isDeleted).length := by
  by_cases hn : g.papers.countP (fun p => p.arxiv_id == aid) = 0
  · have hno : ∀ p ∈ g.papers, p.arxiv_id ≠ aid := by
      intro p hp
      have := List.countP_eq_zero.mp hn p hp
      simpa using this
    have heq : deletePaper g (some aid) = (g, 0) := by
      simp [deletePaper, hn]
    refine ⟨by rw [heq]; exact hno, ?_, fun _ => heq, by rw [heq]; exact heq,
      upsert_deleted_count g batch now⟩
    rintro ⟨p, hp, hpa⟩
    exact absurd hpa (hno p hp)
  · have heq : deletePaper g (some aid)
        = ({ g with
              papers := g.papers.filter (fun p => !(p.arxiv_id == aid)),
              wrote := g.wrote.filter (fun e => !(e.2 == aid)),
              hasCategory := g.hasCategory.filter (fun e => !(e.1 == aid)),
              cites := g.cites.filter (fun e => !(e.1 == aid) && !(e.2 == aid)) },
           g.papers.countP (fun p => p.arxiv_id == aid)) := by
      simp [deletePaper, hn]
    have hfilter : ∀ p ∈ g.papers.filter (fun p => !(p.arxiv_id == aid)), p.arxiv_id ≠ aid := by
      intro p hp
      have := (List.mem_filter.mp hp).2
      simpa using this
    have hcount2 : (g.papers.filter (fun p => !(p.arxiv_id == aid))).countP
        (fun p => p.arxiv_id == aid) = 0 := by
      refine List.countP_eq_zero.mpr ?_
      intro p hp
      simpa using hfilter p hp
    refine ⟨by rw [heq]; exact hfilter, fun _ => by rw [heq]; exact ⟨rfl, rfl, rfl⟩, ?_,
      by rw [heq]; simp [deletePaper, hcount2], upsert_deleted_count g batch now⟩
    intro hall
    exact absurd hn (not_not.mpr (List.countP_eq_zero.mpr (fun p hp => by simpa using hall p hp)))

/-- C3 witness: deleting a present key removes the node and its edges and a
second delete of the same key reports 0; the run-level counter over a
one-record deleted batch is 1. -/
theorem c3_deletion_detach_witness :
    deletePaper
        (deletePaper { papers := [{ arxiv_id := "x" }], wrote := [("A", "x")] } (some "x")).1
        (some "x")
      = ((deletePaper { papers := [{ arxiv_id := "x" }], wrote := [("A", "x")] } (some "x")).1, 0)
    ∧ (upsertPaperBatch noFaults { papers := [{ arxiv_id := "x" }], wrote := [("A", "x")] }
        [{ id := some "x", status := some "deleted" }] 0).2.deleted = 1 :=
  ⟨(c3_deletion_detach { papers := [{ arxiv_id := "x" }], wrote := [("A", "x")] } "x"
      [{ id := some "x", status := some "deleted" }] 0).2.2.2.1,
   (c3_deletion_detach { papers := [{ arxiv_id := "x" }], wrote := [("A", "x")] } "x"
      [{ id := some "x", status := some "deleted" }] 0).2.2.2.2⟩

lemma mem_insertEdges (base new : List (String × String)) (e : String × String) :
    e ∈ insertEdges base new ↔ e ∈ base ∨ e ∈ new := by
  induction new generalizing base with
  | nil => simp [insertEdges]
  | cons x rest ih =>
    simp only [insertEdges, List.foldl_cons] at ih ⊢
    by_cases hx : base.contains x
    · rw [if_pos hx, ih]
      constructor
      · rintro (h | h)
        · exact Or.inl h
        · exact Or.inr (List.mem_cons_of_mem _ h)
      · rintro (h | h)
        · exact Or.inl h
        · rcases List.mem_cons.mp h with rfl | h
          · exact Or.inl (List.elem_iff.mp hx)
          · exact Or.inr h
    · rw [if_neg hx, ih]
      simp only [List.mem_append, List.mem_singleton, List.mem_cons]
      tauto

lemma nodup_insertEdges (base new : List (String × String)) (h : base.Nodup) :
    (insertEdges base new).Nodup := by
  induction new generalizing base with
  | nil => simpa [insertEdges]
  | cons x rest ih =>
    simp only [insertEdges, List.foldl_cons]
    by_cases hx : base.contains x
    · rw [if_pos hx]
      exact ih base h
    · rw [if_neg hx]
      refine ih _ ?_
      simp only [List.nodup_append, List.nodup_singleton]
      refine ⟨h, trivial, ?_⟩
      intro a ha hax
      rcases List.mem_singleton.mp hax with rfl
      exact hx (List.elem_iff.mpr ha)

lemma insertEdges_noop (base new : List (String × String)) (h : ∀ x ∈ new, x ∈ base) :
    insertEdges base new = base := by
  induction new with
  | nil => rfl
  | cons x rest ih =>
    simp only [insertEdges, List.foldl_cons]
    rw [if_pos (List.elem_iff.mpr (h x (List.mem_cons_self x rest)))]
    exact ih (fun y hy => h y (List.mem_cons_of_mem _ hy))

lemma createCitationBatch_papers (g : GraphStore) (cs : List (String × String)) :
    (createCitationBatch g cs).papers = g.papers := by
  induction cs generalizing g with
  | nil => rfl
  | cons c rest ih =>
    simp only [createCitationBatch, List.foldl_cons] at ih ⊢
    rw [ih]
    rfl

lemma mem_createCitationBatch (g : GraphStore) (cs : List (String × String))
    (e : String × String) :
    e ∈ (createCitationBatch g cs).cites
      ↔ e ∈ g.cites ∨ ∃ c ∈ cs, e ∈ citationEdges g.papers c := by
  induction cs generalizing g with
  | nil => simp [createCitationBatch]
  | cons c rest ih =>
    simp only [createCitationBatch, List.foldl_cons] at ih ⊢
    rw [ih (insertCitation g c)]
    simp only [insertCitation, mem_insertEdges]
    constructor
    · rintro ((h | h) | ⟨x, hx, he⟩)
      · exact Or.inl h
      · exact Or.inr ⟨c, List.mem_cons_self c rest, h⟩
      · exact Or.inr ⟨x, List.mem_cons_of_mem _ hx, he⟩
    · rintro (h | ⟨x, hx, he⟩)
      · exact Or.inl (Or.inl h)
      · rcases List.mem_cons.mp hx with rfl | hx
        · exact Or.inl (Or.inr he)
        · exact Or.inr ⟨x, hx, he⟩

lemma nodup_createCitationBatch (g : GraphStore) (cs : List (String × String))
    (h : g.cites.Nodup) : (createCitationBatch g cs).cites.Nodup := by
  induction cs generalizing g with
  | nil => simpa [createCitationBatch]
  | cons c rest ih =>
    simp only [createCitationBatch, List.foldl_cons] at ih ⊢
    exact ih (insertCitation g c) (nodup_insertEdges _ _ h)

lemma createCitationBatch_append (g : GraphStore) (a b : List (String × String)) :
    createCitationBatch g (a ++ b) = createCitationBatch (createCitationBatch g a) b := by
  simp [createCitationBatch, List.foldl_append]

lemma citationCandidates_cons (ids : List String) (w : OpenAlexWork) (ws : List OpenAlexWork) :
    citationCandidates ids (w :: ws)
      = (if (w.id != "" && !(w.referenced_works.isEmpty) && ids.contains w.id) = true then
          (w.referenced_works.filter (fun r => ids.contains r)).map (fun r => (w.id, r))
        else []) ++ citationCandidates ids ws := by
  simp [citationCandidates]

lemma citeLoop_eq (ids : List String) (bs : Nat) (ws : List OpenAlexWork) :
    ∀ (g : GraphStore) (batch : List (String × String)),
    citeLoop ids bs g batch ws = createCitationBatch g (batch ++ citationCandidates ids ws) := by
  induction ws with
  | nil => intro g batch; simp [citeLoop, citationCandidates]
  | cons w ws ih =>
    intro g batch
    rw [citationCandidates_cons]
    by_cases hw : (w.id != "" && !(w.referenced_works.isEmpty) && ids.contains w.id) = true
    · rw [if_pos hw]
      simp only [citeLoop, hw, if_true]
      by_cases hb : bs ≤ (batch ++
          (w.referenced_works.filter (fun r => ids.contains r)).map (fun r => (w.id, r))).length
      · rw [if_pos hb, ih, List.nil_append, ← List.append_assoc]
        simp only [createCitationBatch_append]
      · rw [if_neg hb, ih, List.append_assoc]
    · rw [if_neg hw, List.nil_append]
      simp only [citeLoop, hw, if_false, Bool.false_eq_true]
      exact ih g batch

lemma createCitationBatch_idem (g : GraphStore) (cs : List (String × String)) :
    createCitationBatch (createCitationBatch g cs) cs = createCitationBatch g cs := by
  have hsub : ∀ c ∈ cs, ∀ e ∈ citationEdges (createCitationBatch g cs).papers c,
      e ∈ (createCitationBatch g cs).cites := by
    intro c hc e he
    rw [createCitationBatch_papers] at he
    exact (mem_createCitationBatch g cs e).mpr (Or.inr ⟨c, hc, he⟩)
  set gg := createCitationBatch g cs with hgg
  clear_value gg
  clear hgg
  induction cs with
  | nil => rfl
  | cons c rest ih =>
    simp only [createCitationBatch, List.foldl_cons]
    have h1 : insertCitation gg c = gg := by
      have := insertEdges_noop gg.cites (citationEdges gg.papers c)
        (hsub c (List.mem_cons_self c rest))
      simp only [insertCitation, this]
    rw [h1]
    exact ih (fun x hx e he => hsub x (List.mem_cons_of_mem _ hx) e he)

def c6store : GraphStore :=
  { papers := [{ arxiv_id := "a1", openalex_id := some "W1" },
               { arxiv_id := "a2", openalex_id := some "W2" }] }

def c6work : OpenAlexWork := { id := "W1", referenced_works := ["W2", "W9"] }

/-- C6: the citation builder's final CITES edges are exactly the old ones plus
the edges resolved from the gated candidate pairs — a pair is produced only
when the work's id is truthy and in the pre-loaded key set, its reference list
is non-empty, and the reference is in the set; a reference to an absent id
yields no edge (and no error, the builder being total); MERGE keeps the edge
list duplicate-free, and re-flushing an identical candidate batch is a no-op. -/
theorem c6_citation_gating (g : GraphStore) (works : List OpenAlexWork) (bs : Nat) :
    (∀ e, e ∈ (processFileCitations g works bs).cites
        ↔ e ∈ g.cites
          ∨ ∃ c ∈ citationCandidates (neo4jOpenalexIds g) works, e ∈ citationEdges g.papers c)
    ∧ (g.cites.Nodup → (processFileCitations g works bs).cites.Nodup)
    ∧ ∀ cs : List (String × String),
        createCitationBatch (createCitationBatch g cs) cs = createCitationBatch g cs := by
  have heq : processFileCitations g works bs
      = createCitationBatch g (citationCandidates (neo4jOpenalexIds g) works) := by
    unfold processFileCitations
    rw [citeLoop_eq, List.nil_append]
  refine ⟨?_, ?_, fun cs => createCitationBatch_idem g cs⟩
  · intro e
    rw [heq]
    exact mem_createCitationBatch g _ e
  · intro h
    rw [heq]
    exact nodup_createCitationBatch g _ h

/-- C6 witness: on a store with Papers keyed `W1`/`W2`, a work `W1` citing
`W2` and the absent `W9` produces exactly the `a1 → a2` edge, and the edge
list stays duplicate-free. -/
theorem c6_citation_gating_witness :
    (("a1", "a2") ∈ (processFileCitations c6store [c6work] 1000).cites)
    ∧ (processFileCitations c6store [c6work] 1000).cites.Nodup := by
  refine ⟨((c6_citation_gating c6store [c6work] 1000).1 _).mpr (Or.inr ?_),
    (c6_citation_gating c6store [c6work] 1000).2.1 (by decide)⟩
  exact ⟨("W1", "W2"), by decide, by decide⟩

/-- The DOI write-backs the set-lookup strategy submits: truthy doi and id,
cleaned DOI present in the pre-loaded set. -/
def optCandidates (dois : List String) (ws : List OpenAlexWork) : List (String × String) :=
  ws.flatMap (fun w =>
    if (w.doiTruthy && w.id != "") = true then
      if dois.contains (cleanDoi (w.doi.getD "")) then [(cleanDoi (w.doi.getD ""), w.id)] else []
    else [])

/-- The DOI write-backs the store-side strategy submits: every truthy doi/id. -/
def fastCandidates (ws : List OpenAlexWork) : List (String × String) :=
  ws.flatMap (fun w =>
    if (w.doiTruthy && w.id != "") = true then [(cleanDoi (w.doi.getD ""), w.id)] else [])

lemma runDoiUpdates_append (g : GraphStore) (a b : List (String × String)) :
    runDoiUpdates g (a ++ b) = runDoiUpdates (runDoiUpdates g a) b := by
  simp [runDoiUpdates, List.foldl_append]

lemma optCandidates_cons (dois : List String) (w : OpenAlexWork) (ws : List OpenAlexWork) :
    optCandidates dois (w :: ws)
      = (if (w.doiTruthy && w.id != "") = true then
          if dois.contains (cleanDoi (w.doi.getD "")) then [(cleanDoi (w.doi.getD ""), w.id)]
          else []
        else []) ++ optCandidates dois ws := by
  simp [optCandidates]

lemma fastCandidates_cons (w : OpenAlexWork) (ws : List OpenAlexWork) :
    fastCandidates (w :: ws)
      = (if (w.doiTruthy && w.id != "") = true then [(cleanDoi (w.doi.getD ""), w.id)] else [])
        ++ fastCandidates ws := by
  simp [fastCandidates]

lemma optimizedLoop_eq (dois : List String) (bs : Nat) (ws : List OpenAlexWork) :
    ∀ (g : GraphStore) (batch : List (String × String)),
    optimizedLoop dois bs g batch ws = runDoiUpdates g (batch ++ optCandidates dois ws) := by
  induction ws with
  | nil => intro g batch; simp [optimizedLoop, optCandidates]
  | cons w ws ih =>
    intro g batch
    rw [optCandidates_cons]
    by_cases hw : (w.doiTruthy && w.id != "") = true
    · rw [if_pos hw]
      simp only [optimizedLoop, hw, if_true]
      by_cases hd : dois.contains (cleanDoi (w.doi.getD "")) = true
      · rw [if_pos hd, if_pos hd]
        by_cases hb : bs ≤ (batch ++ [(cleanDoi (w.doi.getD ""), w.id)]).length
        · rw [if_pos hb, ih, List.nil_append, ← List.append_assoc]
          simp only [runDoiUpdates_append]
        · rw [if_neg hb, ih, List.append_assoc]
      · rw [if_neg hd, if_neg hd, List.nil_append]
        by_cases hb : bs ≤ batch.length
        · rw [if_pos hb, ih, List.nil_append]
          simp only [runDoiUpdates_append]
        · rw [if_neg hb, ih]
    · rw [if_neg hw, List.nil_append]
      simp only [optimizedLoop, hw, if_false, Bool.false_eq_true]
      exact ih g batch

lemma fastLoop_eq (bs : Nat) (ws : List OpenAlexWork) :
    ∀ (g : GraphStore) (batch : List (String × String)),
    fastLoop bs g batch ws = runDoiUpdates g (batch ++ fastCandidates ws) := by
  induction ws with
  | nil => intro g batch; simp [fastLoop, fastCandidates]
  | cons w ws ih =>
    intro g batch
    rw [fastCandidates_cons]
    by_cases hw : (w.doiTruthy && w.id != "") = true
    · rw [if_pos hw]
      simp only [fastLoop, hw, if_true]
      by_cases hb : bs ≤ (batch ++ [(cleanDoi (w.doi.getD ""), w.id)]).length
      · rw [if_pos hb, ih, List.nil_append, ← List.append_assoc]
        simp only [runDoiUpdates_append]
      · rw [if_neg hb, ih, List.append_assoc]
    · rw [if_neg hw, List.nil_append]
      simp only [fastLoop, hw, if_false, Bool.false_eq_true]
      exact ih g batch

lemma applyDoiUpdate_doi_map (g : GraphStore) (u : String × String) :
    (applyDoiUpdate g u).papers.map (fun p => p.doi) = g.papers.map (fun p => p.doi) := by
  simp only [applyDoiUpdate, List.map_map]
  refine List.map_congr_left ?_
  intro p _
  by_cases h : p.doi = some u.1 <;> simp [h]

lemma applyDoiUpdate_skip (g : GraphStore) (u : String × String)
    (h : ∀ p ∈ g.papers, ¬(p.doi = some u.1)) : applyDoiUpdate g u = g := by
  have hmap : g.papers.map (fun p =>
      if p.doi == some u.1 then { p with openalex_id := some u.2 } else p) = g.papers := by
    have := List.map_congr_left (l := g.papers)
      (f := fun p => if p.doi == some u.1 then { p with openalex_id := some u.2 } else p)
      (g := id) ?_
    · simpa using this
    · intro p hp
      simp [beq_iff_eq, h p hp]
  simp only [applyDoiUpdate, hmap]

lemma mem_neo4jDois (g : GraphStore) (d : String) (p : Paper) (hp : p ∈ g.papers)
    (hd : p.doi = some d) (hne : d ≠ "") : d ∈ neo4jDois g := by
  simp only [neo4jDois, List.mem_filter, List.mem_filterMap]
  exact ⟨⟨p, hp, hd⟩, by simpa using hne⟩

lemma runDoiUpdates_strategies (g : GraphStore) (hne : ∀ p ∈ g.papers, p.doi ≠ some "")
    (ws : List OpenAlexWork) :
    ∀ (g' : GraphStore),
      g'.papers.map (fun p => p.doi) = g.papers.map (fun p => p.doi) →
      runDoiUpdates g' (optCandidates (neo4jDois g) ws) = runDoiUpdates g' (fastCandidates ws) := by
  induction ws with
  | nil => intro g' _; rfl
  | cons w ws ih =>
    intro g' hdoi
    rw [optCandidates_cons, fastCandidates_cons]
    by_cases hw : (w.doiTruthy && w.id != "") = true
    · rw [if_pos hw, if_pos hw]
      by_cases hd : (neo4jDois g).contains (cleanDoi (w.doi.getD ""))
      · rw [if_pos hd]
        simp only [List.singleton_append, runDoiUpdates, List.foldl_cons]
        exact ih (applyDoiUpdate g' (cleanDoi (w.doi.getD ""), w.id))
          (by rw [applyDoiUpdate_doi_map, hdoi])
      · rw [if_neg hd, List.nil_append, List.singleton_append]
        have hskip : applyDoiUpdate g' (cleanDoi (w.doi.getD ""), w.id) = g' := by
          refine applyDoiUpdate_skip g' _ ?_
          intro p' hp' hpd
          have hmem : some (cleanDoi (w.doi.getD "")) ∈ g.papers.map (fun p => p.doi) := by
            rw [← hdoi]
            exact List.mem_map.mpr ⟨p', hp', hpd⟩
          obtain ⟨p, hp, hpdoi⟩ := List.mem_map.mp hmem
          by_cases hde : cleanDoi (w.doi.getD "") = ""
          · exact hne p hp (by rw [hpdoi, hde])
          · exact hd (List.elem_iff.mpr (mem_neo4jDois g _ p hp hpdoi hde))
        show runDoiUpdates g' (optCandidates (neo4jDois g) ws)
          = runDoiUpdates g' ((cleanDoi (w.doi.getD ""), w.id) :: fastCandidates ws)
        simp only [runDoiUpdates, List.foldl_cons, hskip]
        exact ih g' hdoi
    · rw [if_neg hw, if_neg hw, List.nil_append, List.nil_append]
      exact ih g' hdoi

/-- C5 (amended): on any initial store in which no Paper carries an
empty-string DOI, the client-side set-lookup strategy and the store-side
filtering strategy write `openalex_id` onto exactly the same Papers with the
same values — the final stores are equal, whatever the two batch sizes.  (The
counterexample shows the strategies disagree when a Paper's DOI is the empty
string, which the set pre-load excludes but the store MATCH does not.) -/
theorem c5_matcher_strategy_equivalence (g : GraphStore) (works : List OpenAlexWork)
    (bs₁ bs₂ : Nat) (hne : ∀ p ∈ g.papers, p.doi ≠ some "") :
    processFileOptimized g works bs₁ = processFileFast g works bs₂ := by
  rw [processFileOptimized, processFileFast, optimizedLoop_eq, fastLoop_eq,
    List.nil_append, List.nil_append]
  exact runDoiUpdates_strategies g hne works g rfl

/-- C5 witness: a two-paper store and a three-work stream (one match, one
unmatched DOI, one DOI-less) give identical stores under both strategies with
different batch sizes. -/
theorem c5_matcher_strategy_equivalence_witness :
    processFileOptimized
        { papers := [{ arxiv_id := "p1", doi := some "10.1/x" },
                     { arxiv_id := "p2", doi := none }] }
        [{ id := "W1", doi := some "https://doi.org/10.1/x" },
         { id := "W2", doi := some "10.9/zz" },
         { id := "W3" }] 2
      = processFileFast
        { papers := [{ arxiv_id := "p1", doi := some "10.1/x" },
                     { arxiv_id := "p2", doi := none }] }
        [{ id := "W1", doi := some "https://doi.org/10.1/x" },
         { id := "W2", doi := some "10.9/zz" },
         { id := "W3" }] 3 :=
  c5_matcher_strategy_equivalence _ _ 2 3 (by decide)

/-- The arxiv ids of a paper list. -/
def paperIds (ps : List Paper) : List String := ps.map (fun p => p.arxiv_id)

lemma any_key_iff (ps : List Paper) (a : String) :
    ps.any (fun p => p.arxiv_id == a) = true ↔ a ∈ paperIds ps := by
  simp only [List.any_eq_true, beq_iff_eq, paperIds, List.mem_map]

lemma updateScalars_arxiv_id (p : Paper) (d : PaperData) (now : Int) :
    (updateScalars p d now).arxiv_id = p.arxiv_id := rfl

lemma mem_paperIds_mergePaper (ps : List Paper) (d : PaperData) (now : Int) (a : String) :
    a ∈ paperIds (mergePaper ps d now) ↔ a ∈ paperIds ps ∨ a = d.id.getD "" := by
  by_cases h : ps.any (fun p => p.arxiv_id == d.id.getD "") = true
  · have hids : paperIds (mergePaper ps d now) = paperIds ps := by
      simp only [mergePaper, h, if_true, paperIds, List.map_map]
      refine List.map_congr_left ?_
      intro p _
      by_cases hp : p.arxiv_id = d.id.getD "" <;> simp [hp, updateScalars_arxiv_id]
    rw [hids]
    have hk : d.id.getD "" ∈ paperIds ps := (any_key_iff ps _).mp h
    constructor
    · exact Or.inl
    · rintro (ha | rfl)
      · exact ha
      · exact hk
  · simp only [mergePaper, h, if_false, Bool.false_eq_true, paperIds, List.map_append]
    simp [newPaper, updateScalars_arxiv_id, paperIds]
lemma mem_paperIds_foldl (batch : List PaperData) (now : Int) :
    ∀ (ps : List Paper) (a : String),
    a ∈ paperIds (batch.foldl (fun ps p => mergePaper ps p now) ps)
      ↔ a ∈ paperIds ps ∨ ∃ d ∈ batch, a = d.id.getD "" := by
  induction batch with
  | nil => intro ps a; simp
  | cons d batch ih =>
    intro ps a
    simp only [List.foldl_cons]
    rw [ih, mem_paperIds_mergePaper]
    constructor
    · rintro ((h | h) | ⟨q, hq, rfl⟩)
      · exact Or.inl h
      · exact Or.inr ⟨d, List.mem_cons_self d batch, h⟩
      · exact Or.inr ⟨q, List.mem_cons_of_mem _ hq, rfl⟩
    · rintro (h | ⟨q, hq, rfl⟩)
      · exact Or.inl (Or.inl h)
      · rcases List.mem_cons.mp hq with rfl | hq
        · exact Or.inl (Or.inr rfl)
        · exact Or.inr ⟨q, hq, rfl⟩

lemma mem_foldl_mergeAuthor (names : List String) :
    ∀ (A : List String) (n : String),
    n ∈ names.foldl mergeAuthor A ↔ n ∈ A ∨ n ∈ names := by
  induction names with
  | nil => intro A n; simp
  | cons m names ih =>
    intro A n
    simp only [List.foldl_cons, mergeAuthor]
    by_cases hm : A.contains m
    · rw [if_pos hm, ih]
      constructor
      · rintro (h | h)
        · exact Or.inl h
        · exact Or.inr (List.mem_cons_of_mem _ h)
      · rintro (h | h)
        · exact Or.inl h
        · rcases List.mem_cons.mp h with rfl | h
          · exact Or.inl (List.elem_iff.mp hm)
          · exact Or.inr h
    · rw [if_neg hm, ih]
      simp only [List.mem_append, List.mem_singleton, List.mem_cons]
      tauto

lemma mem_createWrote (papers : List Paper) (authors : List String)
    (rels : List (String × String)) :
    ∀ (base : List (String × String)) (e : String × String),
    e ∈ createWrote papers authors base rels
      ↔ e ∈ base
        ∨ (e ∈ rels ∧ authors.contains e.1 = true
            ∧ papers.any (fun p => p.arxiv_id == e.2) = true) := by
  induction rels with
  | nil => intro base e; simp [createWrote]
  | cons rel rels ih =>
    intro base e
    simp only [createWrote, List.foldl_cons] at ih ⊢
    rw [ih]
    simp only [insertWrote]
    split
    · next hcond =>
      rw [Bool.and_eq_true, Bool.and_eq_true] at hcond
      obtain ⟨⟨h1, h2⟩, h3⟩ := hcond
      simp only [List.mem_append, List.mem_cons, List.not_mem_nil, or_false]
      constructor
      · rintro ((h | rfl) | ⟨hr, ha, hp⟩)
        · exact Or.inl h
        · exact Or.inr ⟨Or.inl rfl, h1, h2⟩
        · exact Or.inr ⟨Or.inr hr, ha, hp⟩
      · rintro (h | ⟨hr | hr, ha, hp⟩)
        · exact Or.inl (Or.inl h)
        · exact Or.inl (Or.inr hr)
        · exact Or.inr ⟨hr, ha, hp⟩
    · next hcond =>
      simp only [List.mem_cons]
      constructor
      · rintro (h | ⟨hr, ha, hp⟩)
        · exact Or.inl h
        · exact Or.inr ⟨Or.inr hr, ha, hp⟩
      · rintro (h | ⟨hr | hr, ha, hp⟩)
        · exact Or.inl h
        · by_cases hb : base.contains e = true
          · exact Or.inl (List.elem_iff.mp hb)
          · exfalso
            apply hcond
            subst hr
            have hb2 : base.contains e = false := by
              revert hb
              cases base.contains e <;> simp
            rw [ha, hp, hb2]
            rfl
        · exact Or.inr ⟨hr, ha, hp⟩

lemma mem_authorRelsOf (batch : List PaperData) (a pid : String) :
    (a, pid) ∈ authorRelsOf batch
      ↔ ∃ q ∈ batch, q.id.getD "" = pid ∧ a ∈ authorNames q := by
  simp only [authorRelsOf, List.mem_flatMap, List.mem_map, Prod.mk.injEq]
  constructor
  · rintro ⟨q, hq, n, hn, rfl, rfl⟩
    exact ⟨q, hq, rfl, hn⟩
  · rintro ⟨q, hq, rfl, hn⟩
    exact ⟨q, hq, a, hn, rfl, rfl⟩

lemma mem_relPids (batch : List PaperData) (pid : String) :
    pid ∈ (authorRelsOf batch).map (fun r => r.2)
      ↔ ∃ q ∈ batch, q.id.getD "" = pid ∧ authorNames q ≠ [] := by
  simp only [List.mem_map]
  constructor
  · rintro ⟨⟨a, pid2⟩, hrel, rfl⟩
    obtain ⟨q, hq, hid, hn⟩ := (mem_authorRelsOf batch a pid2).mp hrel
    exact ⟨q, hq, hid, fun hnil => by rw [hnil] at hn; exact List.not_mem_nil a hn⟩
  · rintro ⟨q, hq, rfl, hn⟩
    obtain ⟨n, hn0⟩ := List.exists_mem_of_ne_nil _ hn
    exact ⟨(n, q.id.getD ""), (mem_authorRelsOf batch n _).mpr ⟨q, hq, rfl, hn0⟩, rfl⟩

/-- C1 (amended): in a successfully applied active batch, for every record
whose paper key occurs exactly once in the batch and whose author list yields
at least one non-empty name, the WROTE edges into that Paper afterwards are
exactly the edges implied by that record's author list (all pre-existing ones
are deleted first); and the deletion is scoped: the incoming WROTE edges of
any paper for which no record in the batch supplies an author name are
untouched. -/
theorem c1_wrote_reconciliation (g : GraphStore) (batch : List PaperData) (now : Int)
    (g' : GraphStore) (hsucc : processActivePapersBatch g batch now = some g') :
    (∀ r ∈ batch, ∀ pid, r.id = some pid →
        batch.countP (fun q => q.id == r.id) = 1 →
        authorNames r ≠ [] →
        ∀ a, (a, pid) ∈ g'.wrote ↔ a ∈ authorNames r)
    ∧ (∀ pid : String, (∀ q ∈ batch, q.id = some pid → authorNames q = []) →
        ∀ a, (a, pid) ∈ g'.wrote ↔ (a, pid) ∈ g.wrote) := by
  simp only [processActivePapersBatch] at hsucc
  by_cases hnone : batch.any (fun p => p.id.isNone) = true
  · rw [if_pos hnone] at hsucc
    exact absurd hsucc (by simp)
  · rw [if_neg hnone] at hsucc
    have hg' : g' = applyActiveBatch g batch now := (Option.some.injEq _ _).mp hsucc.symm
    subst hg'
    have hids : ∀ q ∈ batch, ∃ x, q.id = some x := by
      intro q hq
      rcases hx : q.id with _ | x
      · exact absurd (List.any_eq_true.mpr ⟨q, hq, by rw [hx]; rfl⟩) hnone
      · exact ⟨x, rfl⟩
    constructor
    · intro r hr pid hpid huniq hnames a
      have hpid2 : r.id.getD "" = pid := by rw [hpid]; rfl
      -- the batch's relationship list is non-empty: r contributes
      have hpidmem : pid ∈ (authorRelsOf batch).map (fun r => r.2) :=
        (mem_relPids batch pid).mpr ⟨r, hr, hpid2, hnames⟩
      obtain ⟨rel0, hrel0, -⟩ := List.mem_map.mp hpidmem
      have hne : ¬((authorRelsOf batch).isEmpty = true) := fun h =>
        List.ne_nil_of_mem hrel0 (List.isEmpty_iff.mp h)
      show (a, pid) ∈ (applyActiveBatch g batch now).wrote ↔ _
      rw [show (applyActiveBatch g batch now).wrote
          = if (authorRelsOf batch).isEmpty then g.wrote
            else createWrote
              (batch.foldl (fun ps p => mergePaper ps p now) g.papers)
              (((authorRelsOf batch).map (fun r => r.1)).foldl mergeAuthor g.authors)
              (deleteWroteFor g.wrote ((authorRelsOf batch).map (fun r => r.2)))
              (authorRelsOf batch) from rfl, if_neg hne]
      rw [mem_createWrote]
      constructor
      · rintro (hbase | ⟨hrel, -, -⟩)
        · exfalso
          have hthis := (List.mem_filter.mp hbase).2
          simp at hthis
          obtain ⟨q, hq, hq2⟩ := List.mem_map.mp hpidmem
          have hqe : (q.1, pid) = q := by rw [← hq2]
          exact hthis q.1 (hqe ▸ hq)
        · obtain ⟨q, hq, hqid, hqa⟩ := (mem_authorRelsOf batch a pid).mp hrel
          -- uniqueness forces q = r
          obtain ⟨x, hfil⟩ := List.length_eq_one.mp
            (by rw [← List.countP_eq_length_filter]; exact huniq)
          have hrfil : r ∈ batch.filter (fun q => q.id == r.id) :=
            List.mem_filter.mpr ⟨hr, by simp⟩
          have hqfil : q ∈ batch.filter (fun q' => q'.id == r.id) := by
            refine List.mem_filter.mpr ⟨hq, ?_⟩
            obtain ⟨y, hy⟩ := hids q hq
            have : y = pid := by rw [hy] at hqid; simpa using hqid
            subst this
            rw [hy, hpid]
            simp
          rw [hfil] at hrfil hqfil
          have : q = r := by
            rw [List.mem_singleton.mp hqfil, List.mem_singleton.mp hrfil]
          rw [← this]
          exact hqa
      · intro ha
        refine Or.inr ⟨(mem_authorRelsOf batch a pid).mpr ⟨r, hr, hpid2, ha⟩, ?_, ?_⟩
        · have : a ∈ ((authorRelsOf batch).map (fun r => r.1)).foldl mergeAuthor g.authors := by
            rw [mem_foldl_mergeAuthor]
            exact Or.inr (List.mem_map.mpr
              ⟨(a, pid), (mem_authorRelsOf batch a pid).mpr ⟨r, hr, hpid2, ha⟩, rfl⟩)
          exact List.elem_iff.mpr this
        · rw [any_key_iff, mem_paperIds_foldl]
          exact Or.inr ⟨r, hr, hpid2.symm⟩
    · intro pid hquiet a
      have hpidout : pid ∉ (authorRelsOf batch).map (fun r => r.2) := by
        intro hmem
        obtain ⟨q, hq, hqid, hn⟩ := (mem_relPids batch pid).mp hmem
        obtain ⟨y, hy⟩ := hids q hq
        have : y = pid := by rw [hy] at hqid; simpa using hqid
        subst this
        exact hn (hquiet q hq hy)
      show (a, pid) ∈ (applyActiveBatch g batch now).wrote ↔ _
      rw [show (applyActiveBatch g batch now).wrote
          = if (authorRelsOf batch).isEmpty then g.wrote
            else createWrote
              (batch.foldl (fun ps p => mergePaper ps p now) g.papers)
              (((authorRelsOf batch).map (fun r => r.1)).foldl mergeAuthor g.authors)
              (deleteWroteFor g.wrote ((authorRelsOf batch).map (fun r => r.2)))
              (authorRelsOf batch) from rfl]
      by_cases hne : (authorRelsOf batch).isEmpty
      · rw [if_pos hne]
      · rw [if_neg hne, mem_createWrote]
        constructor
        · rintro (hbase | ⟨hrel, -, -⟩)
          · exact (List.mem_filter.mp hbase).1
          · exfalso
            obtain ⟨q, hq, hqid, hqa⟩ := (mem_authorRelsOf batch a pid).mp hrel
            exact hpidout ((mem_relPids batch pid).mpr
              ⟨q, hq, hqid, fun hnil => by rw [hnil] at hqa; exact List.not_mem_nil a hqa⟩)
        · intro hg
          refine Or.inl (List.mem_filter.mpr ⟨hg, ?_⟩)
          simpa using fun hmem => hpidout (List.elem_iff.mp hmem)

def c1store : GraphStore :=
  { papers := [{ arxiv_id := "x" }], authors := ["A", "B"],
    wrote := [("A", "x"), ("B", "x")] }

def c1recC : PaperData := { id := some "x", authors_parsed := [["C"]] }

/-- C1 witness: re-upserting paper `x` with author list `[C]` against a store
holding WROTE edges from `A` and `B` leaves exactly the edge from `C`. -/
theorem c1_wrote_reconciliation_witness :
    (("C", "x") ∈ (applyActiveBatch c1store [c1recC] 0).wrote)
    ∧ ¬(("A", "x") ∈ (applyActiveBatch c1store [c1recC] 0).wrote) := by
  have h := c1_wrote_reconciliation c1store [c1recC] 0
    (applyActiveBatch c1store [c1recC] 0) rfl
  have hmain := h.1 c1recC (by decide) "x" rfl (by decide) (by decide)
  exact ⟨(hmain "C").mpr (by decide), fun hA => (by decide : ¬("A" ∈ authorNames c1recC))
    ((hmain "A").mp hA)⟩

/-- Cumulative effect of a row list on one existing paper: each matching row
overwrites the scalar fields in order. -/
def ovwPapers (now : Int) (rows : List PaperData) (p : Paper) : Paper :=
  rows.foldl (fun q d => if q.arxiv_id == d.id.getD "" then updateScalars q d now else q) p

/-- The papers a row list appends to a store whose keys are `seen`: one per
first occurrence of a fresh key, overwritten by the later matching rows. -/
def newExtras (now : Int) (seen : List String) : List PaperData → List Paper
  | [] => []
  | d :: rest =>
    if d.id.getD "" ∈ seen then newExtras now seen rest
    else ovwPapers now rest (newPaper d now) :: newExtras now (d.id.getD "" :: seen) rest

lemma ovwPapers_nil (now : Int) (p : Paper) : ovwPapers now [] p = p := rfl

lemma ovwPapers_cons (now : Int) (d : PaperData) (rows : List PaperData) (p : Paper) :
    ovwPapers now (d :: rows) p
      = ovwPapers now rows (if p.arxiv_id == d.id.getD "" then updateScalars p d now else p) :=
  rfl

lemma ovwPapers_arxiv_id (now : Int) (rows : List PaperData) :
    ∀ p : Paper, (ovwPapers now rows p).arxiv_id = p.arxiv_id := by
  induction rows with
  | nil => intro p; rfl
  | cons d rows ih =>
    intro p
    rw [ovwPapers_cons, ih]
    by_cases h : p.arxiv_id == d.id.getD "" <;> simp [h, updateScalars_arxiv_id]

lemma ovwPapers_openalex (now : Int) (rows : List PaperData) :
    ∀ p : Paper, (ovwPapers now rows p).openalex_id = p.openalex_id := by
  induction rows with
  | nil => intro p; rfl
  | cons d rows ih =>
    intro p
    rw [ovwPapers_cons, ih]
    by_cases h : p.arxiv_id == d.id.getD "" <;> simp [h, updateScalars]

lemma ovwPapers_noop (now : Int) (rows : List PaperData) :
    ∀ p : Paper, (∀ d ∈ rows, ¬(p.arxiv_id = d.id.getD "")) → ovwPapers now rows p = p := by
  induction rows with
  | nil => intro p _; rfl
  | cons d rows ih =>
    intro p h
    rw [ovwPapers_cons, if_neg]
    · exact ih p (fun d2 hd2 => h d2 (List.mem_cons_of_mem _ hd2))
    · simpa using h d (List.mem_cons_self d rows)

lemma updateScalars_congr (p q : Paper) (d : PaperData) (now : Int)
    (h1 : p.arxiv_id = q.arxiv_id) (h2 : p.openalex_id = q.openalex_id) :
    updateScalars p d now = updateScalars q d now := by
  simp only [updateScalars]
  rw [h1, h2]

lemma ovwPapers_congr (now : Int) (rows : List PaperData) :
    ∀ p q : Paper, p.arxiv_id = q.arxiv_id → p.openalex_id = q.openalex_id →
    (p = q ∨ ∃ d ∈ rows, d.id.getD "" = p.arxiv_id) →
    ovwPapers now rows p = ovwPapers now rows q := by
  induction rows with
  | nil =>
    intro p q _ _ h
    rcases h with rfl | ⟨d, hd, _⟩
    · rfl
    · exact absurd hd (List.not_mem_nil d)
  | cons d rows ih =>
    intro p q h1 h2 h
    rw [ovwPapers_cons, ovwPapers_cons]
    by_cases hc : p.arxiv_id == d.id.getD ""
    · rw [if_pos hc, if_pos (by rw [← h1]; exact hc)]
      rw [updateScalars_congr p q d now h1 h2]
    · rw [if_neg hc, if_neg (by rw [← h1]; exact hc)]
      rcases h with rfl | ⟨d2, hd2, hkey⟩
      · rfl
      · rcases List.mem_cons.mp hd2 with rfl | hd2
        · exact absurd (by rw [hkey]; simp) hc
        · exact ih p q h1 h2 (Or.inr ⟨d2, hd2, hkey⟩)

/-- The paper-upsert fold of one batch. -/
def mergeFold (now : Int) (ps : List Paper) (batch : List PaperData) : List Paper :=
  batch.foldl (fun ps p => mergePaper ps p now) ps

lemma mergeFold_nil (now : Int) (ps : List Paper) : mergeFold now ps [] = ps := rfl

lemma mergeFold_cons (now : Int) (ps : List Paper) (d : PaperData) (batch : List PaperData) :
    mergeFold now ps (d :: batch) = mergeFold now (mergePaper ps d now) batch := rfl

lemma newExtras_congr (now : Int) (rows : List PaperData) :
    ∀ s₁ s₂ : List String, (∀ x, x ∈ s₁ ↔ x ∈ s₂) →
    newExtras now s₁ rows = newExtras now s₂ rows := by
  induction rows with
  | nil => intro s₁ s₂ _; rfl
  | cons d rows ih =>
    intro s₁ s₂ hs
    simp only [newExtras]
    by_cases hd : d.id.getD "" ∈ s₁
    · rw [if_pos hd, if_pos ((hs _).mp hd)]
      exact ih s₁ s₂ hs
    · rw [if_neg hd, if_neg (fun h => hd ((hs _).mpr h))]
      refine congrArg _ (ih _ _ ?_)
      intro x
      simp only [List.mem_cons]
      exact or_congr Iff.rfl (hs x)

lemma newExtras_nil_of_seen (now : Int) (rows : List PaperData) :
    ∀ seen : List String, (∀ d ∈ rows, d.id.getD "" ∈ seen) →
    newExtras now seen rows = [] := by
  induction rows with
  | nil => intro seen _; rfl
  | cons d rows ih =>
    intro seen h
    simp only [newExtras]
    rw [if_pos (h d (List.mem_cons_self d rows))]
    exact ih seen (fun d2 hd2 => h d2 (List.mem_cons_of_mem _ hd2))

lemma paperIds_map_upd (ps : List Paper) (d : PaperData) (now : Int) :
    paperIds (ps.map (fun p =>
      if p.arxiv_id == d.id.getD "" then updateScalars p d now else p)) = paperIds ps := by
  simp only [paperIds, List.map_map]
  refine List.map_congr_left ?_
  intro p _
  by_cases hp : p.arxiv_id = d.id.getD "" <;> simp [hp, updateScalars_arxiv_id]

lemma mergeFold_normal_form (now : Int) (batch : List PaperData) :
    ∀ ps : List Paper,
    mergeFold now ps batch
      = ps.map (ovwPapers now batch) ++ newExtras now (paperIds ps) batch := by
  induction batch with
  | nil =>
    intro ps
    have h1 : ps.map (ovwPapers now []) = ps := by
      have h2 : ps.map (ovwPapers now []) = ps.map id :=
        List.map_congr_left (fun p _ => ovwPapers_nil now p)
      rw [h2, List.map_id]
    rw [mergeFold_nil, h1]
    simp [newExtras]
  | cons d batch ih =>
    intro ps
    rw [mergeFold_cons]
    simp only [mergePaper]
    by_cases hk : ps.any (fun p => p.arxiv_id == d.id.getD "") = true
    · rw [if_pos hk, ih]
      have hids := paperIds_map_upd ps d now
      rw [hids]
      simp only [newExtras]
      rw [if_pos ((any_key_iff ps (d.id.getD "")).mp hk)]
      congr 1
      rw [List.map_map]
      rfl
    · rw [if_neg hk, ih]
      have hknot : ¬(d.id.getD "" ∈ paperIds ps) := fun h => hk ((any_key_iff ps _).mpr h)
      simp only [newExtras]
      rw [if_neg hknot]
      have hids : paperIds (ps ++ [newPaper d now]) = paperIds ps ++ [d.id.getD ""] := by
        simp [paperIds, newPaper, updateScalars_arxiv_id]
      rw [hids, List.map_append]
      have hmap : ps.map (ovwPapers now (d :: batch)) = ps.map (ovwPapers now batch) := by
        refine List.map_congr_left ?_
        intro p hp
        rw [ovwPapers_cons, if_neg]
        intro hc
        exact hknot (by
          rw [show d.id.getD "" = p.arxiv_id from (beq_iff_eq.mp hc).symm]
          exact List.mem_map.mpr ⟨p, hp, rfl⟩)
      have hnew : [newPaper d now].map (ovwPapers now batch)
          = [ovwPapers now batch (newPaper d now)] := rfl
      rw [hmap, hnew]
      have hseen : newExtras now (paperIds ps ++ [d.id.getD ""]) batch
          = newExtras now (d.id.getD "" :: paperIds ps) batch := by
        refine newExtras_congr now batch _ _ ?_
        intro x
        simp [List.mem_append, List.mem_cons, or_comm]
      rw [hseen, List.append_assoc]
      rfl

lemma ovwPapers_append (now : Int) (l₁ l₂ : List PaperData) (p : Paper) :
    ovwPapers now (l₁ ++ l₂) p = ovwPapers now l₂ (ovwPapers now l₁ p) := by
  simp [ovwPapers, List.foldl_append]

lemma updateScalars_newPaper (x : Paper) (d : PaperData) (now : Int)
    (h1 : x.arxiv_id = d.id.getD "") (h2 : x.openalex_id = none) :
    updateScalars x d now = newPaper d now := by
  rw [newPaper]
  exact updateScalars_congr x _ d now h1 h2

lemma newExtras_map (t₁ t₂ : Int) (rows : List PaperData) :
    ∀ (pre : List PaperData) (seen : List String),
    (∀ q ∈ pre, q.id.getD "" ∈ seen) →
    (newExtras t₁ seen rows).map (ovwPapers t₂ (pre ++ rows)) = newExtras t₂ seen rows := by
  induction rows with
  | nil => intro pre seen _; rfl
  | cons d rows ih =>
    intro pre seen hpre
    simp only [newExtras]
    by_cases hd : d.id.getD "" ∈ seen
    · rw [if_pos hd, if_pos hd]
      have heq : pre ++ d :: rows = (pre ++ [d]) ++ rows := by simp
      rw [heq]
      refine ih (pre ++ [d]) seen ?_
      intro q hq
      rcases List.mem_append.mp hq with hq | hq
      · exact hpre q hq
      · rw [List.mem_singleton.mp hq]
        exact hd
    · rw [if_neg hd, if_neg hd]
      simp only [List.map_cons]
      congr 1
      ·
        have hkey : (ovwPapers t₁ rows (newPaper d t₁)).arxiv_id = d.id.getD "" := by
          rw [ovwPapers_arxiv_id, newPaper, updateScalars_arxiv_id]
        have hopen : (ovwPapers t₁ rows (newPaper d t₁)).openalex_id = none := by
          rw [ovwPapers_openalex]
          rfl
        have hsplit : ovwPapers t₂ (pre ++ d :: rows) (ovwPapers t₁ rows (newPaper d t₁))
            = ovwPapers t₂ (d :: rows) (ovwPapers t₁ rows (newPaper d t₁)) := by
          rw [show pre ++ d :: rows = pre ++ (d :: rows) from rfl, ovwPapers_append]
          congr 1
          refine ovwPapers_noop t₂ pre _ ?_
          intro q hq hcontra
          rw [hkey] at hcontra
          exact hd (hcontra ▸ hpre q hq)
        rw [hsplit, ovwPapers_cons, if_pos (by rw [hkey]; simp)]
        rw [updateScalars_newPaper _ d t₂ hkey hopen]
      · have heq : pre ++ d :: rows = (pre ++ [d]) ++ rows := by simp
        rw [heq]
        refine ih (pre ++ [d]) (d.id.getD "" :: seen) ?_
        intro q hq
        rcases List.mem_append.mp hq with hq | hq
        · exact List.mem_cons_of_mem _ (hpre q hq)
        · rw [List.mem_singleton.mp hq]
          exact List.mem_cons_self _ _

lemma mergeFold_twice (t₁ t₂ : Int) (batch : List PaperData) (ps : List Paper) :
    mergeFold t₂ (mergeFold t₁ ps batch) batch = mergeFold t₂ ps batch := by
  have hkeys : ∀ d ∈ batch, d.id.getD "" ∈ paperIds (mergeFold t₁ ps batch) := by
    intro d hd
    exact (mem_paperIds_foldl batch t₁ ps _).mpr (Or.inr ⟨d, hd, rfl⟩)
  rw [mergeFold_normal_form t₂ batch (mergeFold t₁ ps batch),
    newExtras_nil_of_seen t₂ batch _ hkeys, List.append_nil,
    mergeFold_normal_form t₁ batch ps, List.map_append,
    mergeFold_normal_form t₂ batch ps]
  congr 1
  · rw [List.map_map]
    refine List.map_congr_left ?_
    intro p _
    show ovwPapers t₂ batch (ovwPapers t₁ batch p) = ovwPapers t₂ batch p
    by_cases hm : ∃ d ∈ batch, d.id.getD "" = p.arxiv_id
    · refine ovwPapers_congr t₂ batch _ p ?_ ?_ ?_
      · rw [ovwPapers_arxiv_id]
      · rw [ovwPapers_openalex]
      · refine Or.inr ?_
        obtain ⟨d, hd, hk⟩ := hm
        exact ⟨d, hd, by rw [hk, ovwPapers_arxiv_id]⟩
    · rw [ovwPapers_noop t₁ batch p (fun d hd hc => hm ⟨d, hd, hc.symm⟩)]
  · have := newExtras_map t₁ t₂ batch [] (paperIds ps) (by intro q hq; cases hq)
    simpa using this

lemma foldl_mergeAuthor_noop (names : List String) :
    ∀ A : List String, (∀ n ∈ names, n ∈ A) → names.foldl mergeAuthor A = A := by
  induction names with
  | nil => intro A _; rfl
  | cons m names ih =>
    intro A h
    simp only [List.foldl_cons, mergeAuthor]
    rw [if_pos (List.elem_iff.mpr (h m (List.mem_cons_self m names)))]
    exact ih A (fun n hn => h n (List.mem_cons_of_mem _ hn))

lemma foldl_mergeAuthor_twice (names A : List String) :
    names.foldl mergeAuthor (names.foldl mergeAuthor A) = names.foldl mergeAuthor A :=
  foldl_mergeAuthor_noop names _ (fun n hn => (mem_foldl_mergeAuthor names A n).mpr (Or.inr hn))

/-- The category ids of a category node list. -/
def catKeys (C : List (String × String)) : List String := C.map (fun c => c.1)

lemma any_cat_iff (C : List (String × String)) (a : String) :
    C.any (fun c => c.1 == a) = true ↔ a ∈ catKeys C := by
  simp only [List.any_eq_true, beq_iff_eq, catKeys, List.mem_map]

lemma mem_catKeys_mergeCategory (C : List (String × String)) (cid a : String) :
    a ∈ catKeys (mergeCategory C cid) ↔ a ∈ catKeys C ∨ a = cid := by
  by_cases h : C.any (fun c => c.1 == cid) = true
  · have hids : catKeys (mergeCategory C cid) = catKeys C := by
      simp only [mergeCategory, h, if_true, catKeys, List.map_map]
      refine List.map_congr_left ?_
      intro c _
      by_cases hc : c.1 = cid <;> simp [hc]
    rw [hids]
    have hk : cid ∈ catKeys C := (any_cat_iff C cid).mp h
    constructor
    · exact Or.inl
    · rintro (ha | rfl)
      · exact ha
      · exact hk
  · simp only [mergeCategory, h, if_false, Bool.false_eq_true, catKeys, List.map_append]
    simp [catKeys]

lemma mem_catKeys_foldl (ids : List String) :
    ∀ (C : List (String × String)) (a : String),
    a ∈ catKeys (ids.foldl mergeCategory C) ↔ a ∈ catKeys C ∨ a ∈ ids := by
  induction ids with
  | nil => intro C a; simp
  | cons cid ids ih =>
    intro C a
    simp only [List.foldl_cons]
    rw [ih, mem_catKeys_mergeCategory]
    constructor
    · rintro ((h | rfl) | h)
      · exact Or.inl h
      · exact Or.inr (List.mem_cons_self _ _)
      · exact Or.inr (List.mem_cons_of_mem _ h)
    · rintro (h | h)
      · exact Or.inl (Or.inl h)
      · rcases List.mem_cons.mp h with rfl | h
        · exact Or.inl (Or.inr rfl)
        · exact Or.inr h

lemma foldl_mergeCategory_stab (ids : List String) :
    ∀ (C : List (String × String)) (cid : String), cid ∈ ids →
    ∀ c ∈ ids.foldl mergeCategory C, c.1 = cid → c = (cid, cid) := by
  induction ids using List.reverseRecOn with
  | nil => intro C cid h; cases h
  | append_singleton ids e ih =>
    intro C cid hcid c hc hkey
    rw [List.foldl_append, List.foldl_cons, List.foldl_nil] at hc
    simp only [mergeCategory] at hc
    by_cases hany : (ids.foldl mergeCategory C).any (fun c => c.1 == e) = true
    · rw [if_pos hany] at hc
      obtain ⟨c₀, hc₀, hfc⟩ := List.mem_map.mp hc
      by_cases hce : c₀.1 = e
      · rw [if_pos (by simpa using hce)] at hfc
        have h1 : cid = e := by rw [← hkey, ← hfc, hce]
        rw [← hfc, hce, h1]
      · rw [if_neg (by simpa using hce)] at hfc
        subst hfc
        rcases List.mem_append.mp hcid with hin | hin
        · exact ih C cid hin c₀ hc₀ hkey
        · rw [List.mem_singleton.mp hin] at hkey
          exact absurd hkey hce
    · rw [if_neg hany] at hc
      rcases List.mem_append.mp hc with hin | hin
      · rcases List.mem_append.mp hcid with hcin | hcin
        · exact ih C cid hcin c hin hkey
        · rw [List.mem_singleton.mp hcin] at hkey
          exfalso
          exact hany ((any_cat_iff _ e).mpr (by
            rw [← hkey]
            exact List.mem_map.mpr ⟨c, hin, rfl⟩))
      · have hc2 : c = (e, e) := List.mem_singleton.mp hin
        rw [hc2] at hkey ⊢
        have h1 : e = cid := hkey
        rw [← h1]

lemma foldl_mergeCategory_noop (ids : List String) :
    ∀ C : List (String × String),
    (∀ cid ∈ ids, cid ∈ catKeys C) →
    (∀ cid ∈ ids, ∀ c ∈ C, c.1 = cid → c = (cid, cid)) →
    ids.foldl mergeCategory C = C := by
  induction ids with
  | nil => intro C _ _; rfl
  | cons cid ids ih =>
    intro C hpres hstab
    simp only [List.foldl_cons]
    have hknown : mergeCategory C cid = C := by
      simp only [mergeCategory]
      rw [if_pos ((any_cat_iff C cid).mpr (hpres cid (List.mem_cons_self cid ids)))]
      have hmapid : C.map (fun c => if c.1 == cid then (c.1, cid) else c) = C.map id := by
        refine List.map_congr_left ?_
        intro c hc
        by_cases hk : c.1 = cid
        · rw [if_pos (by simpa using hk)]
          have := hstab cid (List.mem_cons_self cid ids) c hc hk
          rw [this]
          simp [this ▸ hk]
        · rw [if_neg (by simpa using hk)]
          rfl
      rw [hmapid, List.map_id]
    rw [hknown]
    exact ih C (fun c hc => hpres c (List.mem_cons_of_mem _ hc))
      (fun c hc => hstab c (List.mem_cons_of_mem _ hc))

lemma foldl_mergeCategory_twice (ids : List String) (C : List (String × String)) :
    ids.foldl mergeCategory (ids.foldl mergeCategory C) = ids.foldl mergeCategory C := by
  refine foldl_mergeCategory_noop ids _ ?_ ?_
  · intro cid hcid
    exact (mem_catKeys_foldl ids C cid).mpr (Or.inr hcid)
  · intro cid hcid c hc hkey
    exact foldl_mergeCategory_stab ids C cid hcid c hc hkey

lemma createWrote_decomp (papers : List Paper) (authors : List String)
    (rels : List (String × String)) :
    ∀ base : List (String × String), ∃ E,
      createWrote papers authors base rels = base ++ E ∧ ∀ e ∈ E, e ∈ rels := by
  induction rels with
  | nil => intro base; exact ⟨[], by simp [createWrote]⟩
  | cons rel rels ih =>
    intro base
    simp only [createWrote, List.foldl_cons] at ih ⊢
    simp only [insertWrote]
    split
    · obtain ⟨E, hE, hsub⟩ := ih (base ++ [rel])
      refine ⟨[rel] ++ E, by rw [hE, List.append_assoc], ?_⟩
      intro e he
      rcases List.mem_append.mp he with he | he
      · rw [List.mem_singleton.mp he]
        exact List.mem_cons_self _ _
      · exact List.mem_cons_of_mem _ (hsub e he)
    · obtain ⟨E, hE, hsub⟩ := ih base
      exact ⟨E, hE, fun e he => List.mem_cons_of_mem _ (hsub e he)⟩

lemma createHasCat_decomp (papers : List Paper) (cats : List (String × String))
    (rels : List (String × String)) :
    ∀ base : List (String × String), ∃ E,
      createHasCat papers cats base rels = base ++ E ∧ ∀ e ∈ E, e ∈ rels := by
  induction rels with
  | nil => intro base; exact ⟨[], by simp [createHasCat]⟩
  | cons rel rels ih =>
    intro base
    simp only [createHasCat, List.foldl_cons] at ih ⊢
    simp only [insertHasCat]
    split
    · obtain ⟨E, hE, hsub⟩ := ih (base ++ [rel])
      refine ⟨[rel] ++ E, by rw [hE, List.append_assoc], ?_⟩
      intro e he
      rcases List.mem_append.mp he with he | he
      · rw [List.mem_singleton.mp he]
        exact List.mem_cons_self _ _
      · exact List.mem_cons_of_mem _ (hsub e he)
    · obtain ⟨E, hE, hsub⟩ := ih base
      exact ⟨E, hE, fun e he => List.mem_cons_of_mem _ (hsub e he)⟩

lemma deleteWroteFor_createWrote (papers : List Paper) (authors : List String)
    (W : List (String × String)) (rels : List (String × String)) :
    deleteWroteFor
        (createWrote papers authors (deleteWroteFor W (rels.map (fun r => r.2))) rels)
        (rels.map (fun r => r.2))
      = deleteWroteFor W (rels.map (fun r => r.2)) := by
  obtain ⟨E, hE, hsub⟩ := createWrote_decomp papers authors rels
    (deleteWroteFor W (rels.map (fun r => r.2)))
  rw [hE]
  simp only [deleteWroteFor, List.filter_append]
  rw [List.filter_filter]
  have h1 : W.filter (fun e =>
      (!(rels.map (fun r => r.2)).contains e.2 && !(rels.map (fun r => r.2)).contains e.2))
      = W.filter (fun e => !(rels.map (fun r => r.2)).contains e.2) := by
    refine List.filter_congr ?_
    intro e _
    cases (rels.map (fun r => r.2)).contains e.2 <;> rfl
  have h2 : E.filter (fun e => !(rels.map (fun r => r.2)).contains e.2) = [] := by
    refine List.filter_eq_nil_iff.mpr ?_
    intro e he
    have hm : e ∈ rels := hsub e he
    simp
    exact ⟨e.1, by rwa [show (e.1, e.2) = e from rfl]⟩
  rw [h1, h2, List.append_nil]

lemma deleteHasCatFor_createHasCat (papers : List Paper) (cats : List (String × String))
    (H : List (String × String)) (rels : List (String × String)) :
    deleteHasCatFor
        (createHasCat papers cats (deleteHasCatFor H (rels.map (fun r => r.1))) rels)
        (rels.map (fun r => r.1))
      = deleteHasCatFor H (rels.map (fun r => r.1)) := by
  obtain ⟨E, hE, hsub⟩ := createHasCat_decomp papers cats rels
    (deleteHasCatFor H (rels.map (fun r => r.1)))
  rw [hE]
  simp only [deleteHasCatFor, List.filter_append]
  rw [List.filter_filter]
  have h1 : H.filter (fun e =>
      (!(rels.map (fun r => r.1)).contains e.1 && !(rels.map (fun r => r.1)).contains e.1))
      = H.filter (fun e => !(rels.map (fun r => r.1)).contains e.1) := by
    refine List.filter_congr ?_
    intro e _
    cases (rels.map (fun r => r.1)).contains e.1 <;> rfl
  have h2 : E.filter (fun e => !(rels.map (fun r => r.1)).contains e.1) = [] := by
    refine List.filter_eq_nil_iff.mpr ?_
    intro e he
    have hm : e ∈ rels := hsub e he
    simp
    exact ⟨e.2, by rwa [show (e.1, e.2) = e from rfl]⟩
  rw [h1, h2, List.append_nil]

lemma graphStoreExt (g₁ g₂ : GraphStore)
    (h1 : g₁.papers = g₂.papers) (h2 : g₁.authors = g₂.authors)
    (h3 : g₁.categories = g₂.categories) (h4 : g₁.wrote = g₂.wrote)
    (h5 : g₁.hasCategory = g₂.hasCategory) (h6 : g₁.cites = g₂.cites)
    (h7 : g₁.updateLog = g₂.updateLog) : g₁ = g₂ := by
  cases g₁
  cases g₂
  simp only at h1 h2 h3 h4 h5 h6 h7
  rw [h1, h2, h3, h4, h5, h6, h7]

lemma applyActiveBatch_wrote_base (g : GraphStore) (batch : List PaperData) (t : Int) :
    deleteWroteFor (applyActiveBatch g batch t).wrote ((authorRelsOf batch).map (fun r => r.2))
      = deleteWroteFor g.wrote ((authorRelsOf batch).map (fun r => r.2)) := by
  show deleteWroteFor
      (if (authorRelsOf batch).isEmpty then g.wrote
       else createWrote (mergeFold t g.papers batch)
         (((authorRelsOf batch).map (fun r => r.1)).foldl mergeAuthor g.authors)
         (deleteWroteFor g.wrote ((authorRelsOf batch).map (fun r => r.2)))
         (authorRelsOf batch)) ((authorRelsOf batch).map (fun r => r.2)) = _
  by_cases he : (authorRelsOf batch).isEmpty
  · rw [if_pos he]
  · rw [if_neg he, deleteWroteFor_createWrote]

lemma applyActiveBatch_hasCat_base (g : GraphStore) (batch : List PaperData) (t : Int) :
    deleteHasCatFor (applyActiveBatch g batch t).hasCategory
        ((catRelsOf batch).map (fun r => r.1))
      = deleteHasCatFor g.hasCategory ((catRelsOf batch).map (fun r => r.1)) := by
  show deleteHasCatFor
      (if (catRelsOf batch).isEmpty then g.hasCategory
       else createHasCat (mergeFold t g.papers batch)
         (((catRelsOf batch).map (fun r => r.2)).foldl mergeCategory g.categories)
         (deleteHasCatFor g.hasCategory ((catRelsOf batch).map (fun r => r.1)))
         (catRelsOf batch)) ((catRelsOf batch).map (fun r => r.1)) = _
  by_cases he : (catRelsOf batch).isEmpty
  · rw [if_pos he]
  · rw [if_neg he, deleteHasCatFor_createHasCat]

lemma applyActiveBatch_twice (g : GraphStore) (batch : List PaperData) (t₁ t₂ : Int) :
    applyActiveBatch (applyActiveBatch g batch t₁) batch t₂ = applyActiveBatch g batch t₂ := by
  have hpap : (applyActiveBatch (applyActiveBatch g batch t₁) batch t₂).papers
      = (applyActiveBatch g batch t₂).papers := by
    show mergeFold t₂ (mergeFold t₁ g.papers batch) batch = mergeFold t₂ g.papers batch
    exact mergeFold_twice t₁ t₂ batch g.papers
  have haut : (applyActiveBatch (applyActiveBatch g batch t₁) batch t₂).authors
      = (applyActiveBatch g batch t₂).authors := by
    show ((authorRelsOf batch).map (fun r => r.1)).foldl mergeAuthor
        (((authorRelsOf batch).map (fun r => r.1)).foldl mergeAuthor g.authors)
      = ((authorRelsOf batch).map (fun r => r.1)).foldl mergeAuthor g.authors
    exact foldl_mergeAuthor_twice _ _
  have hcat : (applyActiveBatch (applyActiveBatch g batch t₁) batch t₂).categories
      = (applyActiveBatch g batch t₂).categories := by
    show ((catRelsOf batch).map (fun r => r.2)).foldl mergeCategory
        (((catRelsOf batch).map (fun r => r.2)).foldl mergeCategory g.categories)
      = ((catRelsOf batch).map (fun r => r.2)).foldl mergeCategory g.categories
    exact foldl_mergeCategory_twice _ _
  refine graphStoreExt _ _ hpap haut hcat ?_ ?_ rfl rfl
  · show (if (authorRelsOf batch).isEmpty then (applyActiveBatch g batch t₁).wrote
        else createWrote
          (mergeFold t₂ (applyActiveBatch g batch t₁).papers batch)
          (((authorRelsOf batch).map (fun r => r.1)).foldl mergeAuthor
            (applyActiveBatch g batch t₁).authors)
          (deleteWroteFor (applyActiveBatch g batch t₁).wrote
            ((authorRelsOf batch).map (fun r => r.2)))
          (authorRelsOf batch))
      = if (authorRelsOf batch).isEmpty then g.wrote
        else createWrote (mergeFold t₂ g.papers batch)
          (((authorRelsOf batch).map (fun r => r.1)).foldl mergeAuthor g.authors)
          (deleteWroteFor g.wrote ((authorRelsOf batch).map (fun r => r.2)))
          (authorRelsOf batch)
    by_cases he : (authorRelsOf batch).isEmpty
    · rw [if_pos he, if_pos he]
      show (if (authorRelsOf batch).isEmpty then g.wrote else _) = g.wrote
      rw [if_pos he]
    · rw [if_neg he, if_neg he]
      rw [applyActiveBatch_wrote_base]
      rw [show (applyActiveBatch g batch t₁).papers = mergeFold t₁ g.papers batch from rfl,
        mergeFold_twice]
      rw [show (applyActiveBatch g batch t₁).authors
          = ((authorRelsOf batch).map (fun r => r.1)).foldl mergeAuthor g.authors from rfl,
        foldl_mergeAuthor_twice]
  · show (if (catRelsOf batch).isEmpty then (applyActiveBatch g batch t₁).hasCategory
        else createHasCat
          (mergeFold t₂ (applyActiveBatch g batch t₁).papers batch)
          (((catRelsOf batch).map (fun r => r.2)).foldl mergeCategory
            (applyActiveBatch g batch t₁).categories)
          (deleteHasCatFor (applyActiveBatch g batch t₁).hasCategory
            ((catRelsOf batch).map (fun r => r.1)))
          (catRelsOf batch))
      = if (catRelsOf batch).isEmpty then g.hasCategory
        else createHasCat (mergeFold t₂ g.papers batch)
          (((catRelsOf batch).map (fun r => r.2)).foldl mergeCategory g.categories)
          (deleteHasCatFor g.hasCategory ((catRelsOf batch).map (fun r => r.1)))
          (catRelsOf batch)
    by_cases he : (catRelsOf batch).isEmpty
    · rw [if_pos he, if_pos he]
      show (if (catRelsOf batch).isEmpty then g.hasCategory else _) = g.hasCategory
      rw [if_pos he]
    · rw [if_neg he, if_neg he]
      rw [applyActiveBatch_hasCat_base]
      rw [show (applyActiveBatch g batch t₁).papers = mergeFold t₁ g.papers batch from rfl,
        mergeFold_twice]
      rw [show (applyActiveBatch g batch t₁).categories
          = ((catRelsOf batch).map (fun r => r.2)).foldl mergeCategory g.categories from rfl,
        foldl_mergeCategory_twice]

lemma upsert_all_active (g : GraphStore) (batch : List PaperData) (now : Int)
    (hact : ∀ p ∈ batch, p.isDeleted = false) (hne : batch.isEmpty = false) :
    (upsertPaperBatch noFaults g batch now).1
      = if batch.any (fun p => p.id.isNone) then g else applyActiveBatch g batch now := by
  have hdel : batch.filter PaperData.isDeleted = [] :=
    List.filter_eq_nil_iff.mpr (fun p hp => by simp [hact p hp])
  have hactf : batch.filter (fun p => !(p.isDeleted)) = batch :=
    List.filter_eq_self.mpr (fun p hp => by simp [hact p hp])
  simp only [upsertPaperBatch, hne, Bool.false_eq_true, if_false, hdel, hactf, runDeletes]
  have hf : noFaults.activeFault = false := rfl
  simp only [hf, Bool.false_eq_true, if_false]
  simp only [processActivePapersBatch]
  by_cases hnone : batch.any (fun p => p.id.isNone) = true
  · simp only [hnone, if_true]
  · simp only [hnone, Bool.false_eq_true, if_false]

/-- C2 (amended): on an all-active batch, running the upsert engine a second
time (with clock `t₂`) produces exactly the state of a single run at `t₂`: no
nodes, edges or scalar values beyond the `last_modified` refresh differ, and
with an identical clock the re-run changes nothing at all.  (The
counterexample shows the claim as stated fails: the second run rewrites the
`last_modified` scalar with its own clock.) -/
theorem c2_reupsert_is_single_run (g : GraphStore) (batch : List PaperData) (t₁ t₂ : Int)
    (hact : ∀ p ∈ batch, p.isDeleted = false) :
    (upsertPaperBatch noFaults (upsertPaperBatch noFaults g batch t₁).1 batch t₂).1
      = (upsertPaperBatch noFaults g batch t₂).1 := by
  by_cases hne : batch.isEmpty = true
  · simp only [upsertPaperBatch, hne, if_true]
  · have hne2 : batch.isEmpty = false := by
      revert hne
      cases batch.isEmpty <;> simp
    rw [upsert_all_active g batch t₂ hact hne2,
      upsert_all_active _ batch t₂ hact hne2,
      upsert_all_active g batch t₁ hact hne2]
    by_cases hnone : batch.any (fun p => p.id.isNone) = true
    · simp only [hnone, if_true]
    · simp only [hnone, Bool.false_eq_true, if_false]
      exact applyActiveBatch_twice g batch t₁ t₂

/-- C2 witness: re-running a one-record active batch with the same clock
reproduces the identical store. -/
theorem c2_reupsert_is_single_run_witness :
    (upsertPaperBatch noFaults (upsertPaperBatch noFaults emptyStore [c2rec] 7).1 [c2rec] 7).1
      = (upsertPaperBatch noFaults emptyStore [c2rec] 7).1 :=
  c2_reupsert_is_single_run emptyStore [c2rec] 7 7 (by decide)
